import Mathlib

/-!
Verification development for the claude_sync safe synchronization engine.

The definitions below are a shallow embedding of the TypeScript sources
`src/sync/sync-state.ts` (state store and `SafeSync` orchestrator),
`src/sync/backup-manager.ts` (`BackupManager`) and `src/sync/sync-validator.ts`
(`SyncValidator`).

Modelling conventions:
* File contents are abstract tokens (`Nat`); the SHA-256 digest is an
  arbitrary function `h : Nat → Nat` passed explicitly to every definition
  that hashes content (the code is parametric in the digest's behaviour).
* `Date` values are `Nat` epoch timestamps; `getTime()` comparisons become
  `Nat` comparisons.
* A JavaScript `Map` that is only iterated and mutated through
  `get`/`set`/`delete` is modelled as an insertion-ordered list where `set`
  replaces the first entry with the same key (or appends) and `get` finds
  the first entry with the key, which is exactly `Map` semantics when keys
  are unique.
* Fallible filesystem reads are `Option`; the possibility that `fs.copyFile`
  lands corrupted bytes is modelled by a `written : Nat → Nat` parameter
  giving the content that actually reached the destination file.
* Backup creation inside the orchestrator's execute loop is abstracted by a
  `backupOk : String → Bool` oracle (the orchestrator only inspects
  `BackupResult.success`); thrown exceptions inside `executeOperation` are
  abstracted by an `execOk : SyncOperation → Bool` oracle.
* The remote store follows the semantics of `mock-claude-client.ts`:
  `uploadKnowledgeFile` appends a fresh file object (fresh id, `updatedAt`
  set to the current time) and never replaces an existing one.
-/

set_option maxHeartbeats 1000000

namespace ClaudeSync

/-- Sync direction, from `SafeSyncOptions.direction` / `SyncStateEntry.syncDirection`. -/
inductive SyncDirection where
  | upload
  | download
  | both
deriving DecidableEq

/-- `SyncStateEntry.conflictState` enum. -/
inductive ConflictState where
  | none
  | local_newer
  | remote_newer
  | both_modified
deriving DecidableEq

/-- One record per tracked file (`SyncStateEntry` in sync-state.ts). -/
structure SyncStateEntry where
  fileId : String
  projectId : String
  localPath : String
  remoteId : Option String
  localHash : Nat
  remoteHash : Option Nat
  localMtime : Nat
  remoteMtime : Option Nat
  lastSyncTime : Nat
  syncDirection : SyncDirection
  conflictState : ConflictState
  backupPath : Option String
  size : Nat
  isDeleted : Bool
deriving DecidableEq

/-- One record per backup (`BackupEntry` in sync-state.ts). -/
structure BackupEntry where
  backupId : String
  originalPath : String
  backupPath : String
  createdAt : Nat
  fileHash : Nat
  projectId : String
  reason : String
deriving DecidableEq

/-- The persisted content of a `JsonSyncStateDatabase`: the two arrays that
`save()` serializes. -/
structure StoreData where
  syncStates : List SyncStateEntry
  backups : List BackupEntry
deriving DecidableEq

/-- A flat filesystem: path to content token.  `find?` order is irrelevant
because `Fs.write` keeps paths unique. -/
structure Fs where
  files : List (String × Nat)
deriving DecidableEq

/-- `fs.readFile` / `fs.stat`: `none` models a thrown ENOENT. -/
def Fs.read (fs : Fs) (p : String) : Option Nat :=
  (fs.files.find? (fun e => e.1 == p)).map (fun e => e.2)

/-- `fs.writeFile` / `fs.copyFile` destination: replace the first entry with
this path, or append. -/
def Fs.writeList (p : String) (c : Nat) : List (String × Nat) → List (String × Nat)
  | [] => [(p, c)]
  | e :: es => if e.1 == p then (p, c) :: es else e :: Fs.writeList p c es

/-- `fs.writeFile`. -/
def Fs.write (fs : Fs) (p : String) (c : Nat) : Fs :=
  ⟨Fs.writeList p c fs.files⟩

/-- `fs.unlink`. -/
def Fs.remove (fs : Fs) (p : String) : Fs :=
  ⟨fs.files.filter (fun e => e.1 != p)⟩

/-- `JsonSyncStateDatabase.getFileState`: `Map.get` on key `projectId:localPath`. -/
def getFileState (sts : List SyncStateEntry) (pid p : String) : Option SyncStateEntry :=
  sts.find? (fun e => e.projectId == pid && e.localPath == p)

/-- `JsonSyncStateDatabase.saveFileState`: `Map.set` on key `projectId:localPath`. -/
def saveFileState (sts : List SyncStateEntry) (e : SyncStateEntry) : List SyncStateEntry :=
  match sts with
  | [] => [e]
  | x :: xs =>
    if x.projectId == e.projectId && x.localPath == e.localPath then e :: xs
    else x :: saveFileState xs e

/-- `JsonSyncStateDatabase.listFileStates`. -/
def listFileStates (sts : List SyncStateEntry) (pid : String) : List SyncStateEntry :=
  sts.filter (fun e => e.projectId == pid)

/-- `JsonSyncStateDatabase.createBackup`: `Map.set` on key `backupId`. -/
def setBackup (bs : List BackupEntry) (e : BackupEntry) : List BackupEntry :=
  match bs with
  | [] => [e]
  | x :: xs => if x.backupId == e.backupId then e :: xs else x :: setBackup xs e

/-- The comparator `(a, b) => b.createdAt.getTime() - a.createdAt.getTime()`:
`a` sorts no later than `b` when `a` was created no earlier than `b`. -/
def newerEq (a b : BackupEntry) : Prop := b.createdAt ≤ a.createdAt

instance : DecidableRel newerEq := fun a b => Nat.decLe b.createdAt a.createdAt

instance : IsTotal BackupEntry newerEq :=
  ⟨fun a b => (Nat.le_total b.createdAt a.createdAt).elim Or.inl Or.inr⟩

instance : IsTrans BackupEntry newerEq :=
  ⟨fun _ _ _ hab hbc => Nat.le_trans hbc hab⟩

/-- `Array.prototype.sort` with the newest-first comparator (stable,
per ES2019; insertion sort with a total preorder is stable too). -/
def sortByNewest (l : List BackupEntry) : List BackupEntry :=
  l.insertionSort newerEq

/-- The `originalPath` filter of `listBackups`; the guard `originalPath && …`
means a missing or empty (falsy) string disables the filter. -/
def matchesPathFilter (b : BackupEntry) : Option String → Bool
  | Option.none => true
  | Option.some p => if p = "" then true else b.originalPath == p

/-- `JsonSyncStateDatabase.listBackups`: filter by project (and optionally by
original path), newest first. -/
def listBackups (bs : List BackupEntry) (pid : String) (originalPath : Option String) :
    List BackupEntry :=
  sortByNewest (bs.filter (fun b => b.projectId == pid && matchesPathFilter b originalPath))

/-- `JsonSyncStateDatabase.deleteBackup`: look the record up, unlink its
backup file, drop the record. -/
def deleteBackup (st : StoreData) (fs : Fs) (bid : String) : StoreData × Fs :=
  match st.backups.find? (fun b => b.backupId == bid) with
  | Option.none => (st, fs)
  | Option.some b =>
    ({ st with backups := st.backups.filter (fun x => x.backupId != bid) },
     fs.remove b.backupPath)

/-- The backups of one original path within one project, in insertion order
(the groups built by `cleanupOldBackups`). -/
def backupsForPath (bs : List BackupEntry) (pid p : String) : List BackupEntry :=
  bs.filter (fun b => b.projectId == pid && b.originalPath == p)

/-- Helper for `firstDedup`: keep the first occurrence of each key,
remembering the keys already seen. -/
def firstDedupAux (seen : List String) : List String → List String
  | [] => []
  | p :: ps =>
    if p ∈ seen then firstDedupAux seen ps
    else p :: firstDedupAux (p :: seen) ps

/-- Distinct keys in first-occurrence order, as produced by inserting into a
`Map` while iterating. -/
def firstDedup (l : List String) : List String :=
  firstDedupAux [] l

/-- The backups `cleanupOldBackups` deletes: for every original path of the
project, everything beyond the newest `retentionCount` of that path. -/
def staleBackups (bs : List BackupEntry) (pid : String) (retentionCount : Nat) :
    List BackupEntry :=
  (firstDedup ((bs.filter (fun b => b.projectId == pid)).map (fun b => b.originalPath))).flatMap
    (fun p => (sortByNewest (backupsForPath bs pid p)).drop retentionCount)

/-- `JsonSyncStateDatabase.cleanupOldBackups`: group the project's backups by
original path, sort each group newest first, delete everything past the
retention count. -/
def cleanupOldBackups (st : StoreData) (fs : Fs) (pid : String) (retentionCount : Nat) :
    StoreData × Fs :=
  (staleBackups st.backups pid retentionCount).foldl
    (fun acc b => deleteBackup acc.1 acc.2 b.backupId) (st, fs)

/-- `BackupOptions` (compressionLevel and location are never consulted). -/
structure BackupOptions where
  enabled : Bool
  retentionCount : Nat
  autoCleanup : Bool
deriving DecidableEq

/-- `BackupResult`. -/
structure BackupResult where
  success : Bool
  backupId : Option String
  backupPath : Option String
  error : Option String
deriving DecidableEq

/-- `BackupManager.createBackup`.  `cwdRel` models `path.relative(process.cwd(), ·)`;
`backupId`/`backupPath` stand for the random id and the timestamped name built
from it; `written` is the content that actually landed in the copy. -/
def createBackup (h : Nat → Nat) (opts : BackupOptions) (pid : String)
    (cwdRel : String → String) (st : StoreData) (fs : Fs)
    (originalPath reason backupId backupPath : String) (now : Nat)
    (written : Nat → Nat) : BackupResult × StoreData × Fs :=
  if !opts.enabled then
    ({ success := true, backupId := Option.none, backupPath := Option.none,
       error := Option.none }, st, fs)
  else
    match fs.read originalPath with
    | Option.none =>
      -- `fs.stat` threw (or the path is not a file): caught, reported as failure
      ({ success := false, backupId := Option.none, backupPath := Option.none,
         error := Option.some "Unknown error" }, st, fs)
    | Option.some src =>
      let fileHash := h src
      let copied := written src
      let fs1 := fs.write backupPath copied
      let backupHash := h copied
      if backupHash ≠ fileHash then
        ({ success := false, backupId := Option.none, backupPath := Option.none,
           error := Option.some "Backup integrity verification failed" },
         st, fs1.remove backupPath)
      else
        let entry : BackupEntry :=
          { backupId := backupId, originalPath := cwdRel originalPath,
            backupPath := backupPath, createdAt := now, fileHash := fileHash,
            projectId := pid, reason := reason }
        let st1 : StoreData := { st with backups := setBackup st.backups entry }
        let cleaned :=
          if opts.autoCleanup then cleanupOldBackups st1 fs1 pid opts.retentionCount
          else (st1, fs1)
        ({ success := true, backupId := Option.some backupId,
           backupPath := Option.some backupPath, error := Option.none },
         cleaned.1, cleaned.2)

/-- `BackupManager.restoreFromBackup`.  The `targetPath || backup.originalPath`
guard treats an empty string as absent. -/
def restoreFromBackup (h : Nat → Nat) (pid : String) (st : StoreData) (fs : Fs)
    (backupId : String) (targetPath : Option String) (written : Nat → Nat) :
    BackupResult × Fs :=
  let backups := listBackups st.backups pid Option.none
  match backups.find? (fun b => b.backupId == backupId) with
  | Option.none =>
    ({ success := false, backupId := Option.none, backupPath := Option.none,
       error := Option.some "Backup not found" }, fs)
  | Option.some b =>
    match fs.read b.backupPath with
    | Option.none =>
      ({ success := false, backupId := Option.none, backupPath := Option.none,
         error := Option.some "Backup file no longer exists on disk" }, fs)
    | Option.some content =>
      let restorePath :=
        match targetPath with
        | Option.some p => if p = "" then b.originalPath else p
        | Option.none => b.originalPath
      let restored := written content
      let fs1 := fs.write restorePath restored
      if h restored ≠ b.fileHash then
        ({ success := false, backupId := Option.none, backupPath := Option.none,
           error := Option.some "Restored file integrity verification failed" }, fs1)
      else
        ({ success := true, backupId := Option.some b.backupId,
           backupPath := Option.some restorePath, error := Option.none }, fs1)

/-- `BackupManager.hasFileChangedSinceBackup`. -/
def hasFileChangedSinceBackup (h : Nat → Nat) (pid : String) (cwdRel : String → String)
    (st : StoreData) (fs : Fs) (filePath : String) : Bool :=
  match fs.read filePath with
  | Option.none => true
  | Option.some c =>
    match listBackups st.backups pid (Option.some (cwdRel filePath)) with
    | [] => true
    | latest :: _ => h c != latest.fileHash

/-- A local file as seen by the orchestrator's scan (`getLocalFiles` result
plus the `fs.stat` data the code reads); `path` is relative to the project
root and exclude patterns are already applied. -/
structure LocalFile where
  path : String
  content : Nat
  mtime : Nat
  size : Nat
deriving DecidableEq

/-- A remote knowledge file (`ClaudeKnowledgeFile`): id, path, content,
`updatedAt` timestamp, size. -/
structure RemoteFile where
  id : String
  path : String
  content : Nat
  updatedAt : Nat
  size : Nat
deriving DecidableEq

/-- `ValidationIssue.type`. -/
inductive IssueType where
  | error
  | warning
  | info
deriving DecidableEq

/-- `ValidationIssue` (suggestion field omitted; never consulted). -/
structure ValidationIssue where
  type : IssueType
  code : String
  message : String
deriving DecidableEq

/-- `ConflictInfo.conflictType`. -/
inductive ConflictType where
  | local_newer
  | remote_newer
  | both_modified
  | local_deleted
  | remote_deleted
deriving DecidableEq

/-- `ConflictInfo`. -/
structure ConflictInfo where
  filePath : String
  conflictType : ConflictType
  localMtime : Option Nat := Option.none
  remoteMtime : Option Nat := Option.none
  lastSyncTime : Option Nat := Option.none
  localHash : Option Nat := Option.none
  remoteHash : Option Nat := Option.none
deriving DecidableEq

/-- First local file with the given relative path. -/
def findLocal (locals : List LocalFile) (p : String) : Option LocalFile :=
  locals.find? (fun f => f.path == p)

/-- The conflict `SyncValidator.validateLocalFiles` records for one local
file: live hash differs from the stored hash, a remote modification time is
recorded (`fileState.remoteMtime` is truthy), and the file's mtime is newer
than the last sync time. -/
def localConflictFor (h : Nat → Nat) (sts : List SyncStateEntry) (pid : String)
    (f : LocalFile) : Option ConflictInfo :=
  match getFileState sts pid f.path with
  | Option.none => Option.none
  | Option.some st =>
    let currentHash := h f.content
    if currentHash ≠ st.localHash then
      match st.remoteMtime with
      | Option.some rm =>
        if st.lastSyncTime < f.mtime then
          Option.some
            { filePath := f.path, conflictType := ConflictType.local_newer,
              localMtime := Option.some f.mtime, remoteMtime := Option.some rm,
              lastSyncTime := Option.some st.lastSyncTime,
              localHash := Option.some currentHash, remoteHash := st.remoteHash }
        else Option.none
      | Option.none => Option.none
    else Option.none

/-- Conflicts collected by `SyncValidator.validateLocalFiles`. -/
def validateLocalConflicts (h : Nat → Nat) (sts : List SyncStateEntry) (pid : String)
    (locals : List LocalFile) : List ConflictInfo :=
  locals.filterMap (localConflictFor h sts pid)

/-- The conflict `SyncValidator.validateRemoteFiles` records for one remote
file: tracked and reported as modified after the last sync; classified by
whether the local copy exists and whether its mtime is newer than last sync. -/
def remoteConflictFor (sts : List SyncStateEntry) (pid : String)
    (locals : List LocalFile) (rf : RemoteFile) : Option ConflictInfo :=
  match getFileState sts pid rf.path with
  | Option.none => Option.none
  | Option.some st =>
    if st.lastSyncTime < rf.updatedAt then
      match findLocal locals rf.path with
      | Option.some lf =>
        if st.lastSyncTime < lf.mtime then
          Option.some
            { filePath := rf.path, conflictType := ConflictType.both_modified,
              localMtime := Option.some lf.mtime,
              remoteMtime := Option.some rf.updatedAt,
              lastSyncTime := Option.some st.lastSyncTime }
        else
          Option.some
            { filePath := rf.path, conflictType := ConflictType.remote_newer,
              remoteMtime := Option.some rf.updatedAt,
              lastSyncTime := Option.some st.lastSyncTime }
      | Option.none =>
        Option.some
          { filePath := rf.path, conflictType := ConflictType.local_deleted,
            remoteMtime := Option.some rf.updatedAt,
            lastSyncTime := Option.some st.lastSyncTime }
    else Option.none

/-- Conflicts collected by `SyncValidator.validateRemoteFiles`. -/
def validateRemoteConflicts (sts : List SyncStateEntry) (pid : String)
    (locals : List LocalFile) (remotes : List RemoteFile) : List ConflictInfo :=
  remotes.filterMap (remoteConflictFor sts pid locals)

/-- The conflict `SyncValidator.detectConflicts` records for one tracked
entry: local file gone while the remote path still exists. -/
def deletedConflictFor (locals : List LocalFile) (remotes : List RemoteFile)
    (st : SyncStateEntry) : Option ConflictInfo :=
  match findLocal locals st.localPath with
  | Option.some _ => Option.none
  | Option.none =>
    if remotes.any (fun rf => rf.path == st.localPath) then
      Option.some
        { filePath := st.localPath, conflictType := ConflictType.local_deleted,
          lastSyncTime := Option.some st.lastSyncTime }
    else Option.none

/-- Conflicts collected by `SyncValidator.detectConflicts`. -/
def detectConflicts (sts : List SyncStateEntry) (pid : String)
    (locals : List LocalFile) (remotes : List RemoteFile) : List ConflictInfo :=
  (listFileStates sts pid).filterMap (deletedConflictFor locals remotes)

/-- All conflicts `SyncValidator.validate` collects for a direction,
in collection order. -/
def conflictsFor (h : Nat → Nat) (sts : List SyncStateEntry) (pid : String)
    (locals : List LocalFile) (remotes : List RemoteFile) (dir : SyncDirection) :
    List ConflictInfo :=
  (if dir = SyncDirection.upload ∨ dir = SyncDirection.both then
    validateLocalConflicts h sts pid locals
  else []) ++
  (if dir = SyncDirection.download ∨ dir = SyncDirection.both then
    validateRemoteConflicts sts pid locals remotes
  else []) ++
  (if dir = SyncDirection.both then detectConflicts sts pid locals remotes else [])

/-- The options `SyncValidator` consults when computing `canProceed`. -/
structure ValidatorOptions where
  maxConflictCount : Nat
  allowForce : Bool
deriving DecidableEq

/-- `ValidationResult` (stats and recommendations omitted; no claim
mentions them). -/
structure ValidationResult where
  isValid : Bool
  canProceed : Bool
  issues : List ValidationIssue
  conflicts : List ConflictInfo
deriving DecidableEq

/-- `SyncValidator.validate`.  The environment checks (disk space,
permissions, git status, connectivity) touch the outside world, so their
outcomes enter as the `envIssues` parameter; the file-level scans are pure
here (no read errors), so the issue list is exactly `envIssues`. -/
def validate (h : Nat → Nat) (envIssues : List ValidationIssue)
    (opts : ValidatorOptions) (sts : List SyncStateEntry) (pid : String)
    (locals : List LocalFile) (remotes : List RemoteFile) (dir : SyncDirection) :
    ValidationResult :=
  let issues := envIssues
  let conflicts := conflictsFor h sts pid locals remotes dir
  let hasErrors := issues.any (fun i => i.type == IssueType.error)
  let tooManyConflicts := opts.maxConflictCount < conflicts.length
  let canProceed := !hasErrors && (!tooManyConflicts || opts.allowForce)
  { isValid := !hasErrors, canProceed := canProceed, issues := issues,
    conflicts := conflicts }

/-- `SyncOperation.type`. -/
inductive OpType where
  | upload
  | download
  | delete_local
  | delete_remote
deriving DecidableEq

/-- `SyncOperation` (the optional `conflictType` field is never assigned in
the source and is omitted). -/
structure SyncOperation where
  type : OpType
  filePath : String
  reason : String
  backupRequired : Bool
deriving DecidableEq

/-- `SafeSyncOptions.conflictResolution`. -/
inductive Strategy where
  | ask
  | skip
  | local_wins
  | remote_wins
  | backup_and_merge
deriving DecidableEq

/-- The `SafeSyncOptions` fields the orchestrator's control flow consults. -/
structure SafeSyncOptions where
  direction : SyncDirection
  dryRun : Bool
  validationEnabled : Bool
  maxConflictCount : Nat
  strategy : Strategy
  force : Bool
deriving DecidableEq

/-- The world the orchestrator acts on: the scanned local tree, the remote
listing, and the in-memory sync states of the database. -/
structure World where
  locals : List LocalFile
  remotes : List RemoteFile
  syncStates : List SyncStateEntry
deriving DecidableEq

/-- The operation `SafeSync.planUploadOperations` emits for one local file:
upload when untracked, upload with mandatory backup when the live hash
differs from the stored one, nothing otherwise. -/
def uploadOpFor (h : Nat → Nat) (sts : List SyncStateEntry) (pid : String)
    (f : LocalFile) : Option SyncOperation :=
  match getFileState sts pid f.path with
  | Option.none =>
    Option.some
      { type := OpType.upload, filePath := f.path, reason := "New local file",
        backupRequired := false }
  | Option.some st =>
    if h f.content ≠ st.localHash then
      Option.some
        { type := OpType.upload, filePath := f.path,
          reason := "Local file modified", backupRequired := true }
    else Option.none

/-- `SafeSync.planUploadOperations`. -/
def planUploadOperations (h : Nat → Nat) (sts : List SyncStateEntry) (pid : String)
    (locals : List LocalFile) : List SyncOperation :=
  locals.filterMap (uploadOpFor h sts pid)

/-- The operation `SafeSync.planDownloadOperations` emits for one remote
file: download when untracked, download (with backup if a local copy exists)
when reported modified after the last sync. -/
def downloadOpFor (sts : List SyncStateEntry) (pid : String)
    (locals : List LocalFile) (rf : RemoteFile) : Option SyncOperation :=
  match getFileState sts pid rf.path with
  | Option.none =>
    Option.some
      { type := OpType.download, filePath := rf.path,
        reason := "New remote file", backupRequired := false }
  | Option.some st =>
    if st.lastSyncTime < rf.updatedAt then
      Option.some
        { type := OpType.download, filePath := rf.path,
          reason := "Remote file modified",
          backupRequired := (findLocal locals rf.path).isSome }
    else Option.none

/-- `SafeSync.planDownloadOperations`. -/
def planDownloadOperations (sts : List SyncStateEntry) (pid : String)
    (remotes : List RemoteFile) (locals : List LocalFile) : List SyncOperation :=
  remotes.filterMap (downloadOpFor sts pid locals)

/-- `SafeSync.planOperations`: uploads first, then downloads, per direction. -/
def planOperations (h : Nat → Nat) (dir : SyncDirection) (sts : List SyncStateEntry)
    (pid : String) (locals : List LocalFile) (remotes : List RemoteFile) :
    List SyncOperation :=
  (if dir = SyncDirection.upload ∨ dir = SyncDirection.both then
    planUploadOperations h sts pid locals
  else []) ++
  (if dir = SyncDirection.download ∨ dir = SyncDirection.both then
    planDownloadOperations sts pid remotes locals
  else [])

/-- The `backup_and_merge` branch of `handleConflicts`: flag the first upload
operation for the conflicted path (`Array.find` then in-place mutation). -/
def setFirstUploadBackup (p : String) : List SyncOperation → List SyncOperation
  | [] => []
  | op :: ops =>
    if op.type == OpType.upload && op.filePath == p then
      { op with
        backupRequired := true,
        reason := op.reason ++ " (conflict - backup created)" } :: ops
    else op :: setFirstUploadBackup p ops

/-- One iteration of `SafeSync.handleConflicts` over one conflict. -/
def resolveConflict (s : Strategy) (ops : List SyncOperation) (c : ConflictInfo) :
    List SyncOperation :=
  match s with
  | Strategy.skip => ops.filter (fun op => op.filePath != c.filePath)
  | Strategy.ask => ops.filter (fun op => op.filePath != c.filePath)
  | Strategy.local_wins =>
    ops.filter (fun op => !(op.type == OpType.download && op.filePath == c.filePath))
  | Strategy.remote_wins =>
    ops.filter (fun op => !(op.type == OpType.upload && op.filePath == c.filePath))
  | Strategy.backup_and_merge => setFirstUploadBackup c.filePath ops

/-- `SafeSync.handleConflicts`: fold the resolution step over the conflicts. -/
def handleConflicts (s : Strategy) (conflicts : List ConflictInfo)
    (ops : List SyncOperation) : List SyncOperation :=
  conflicts.foldl (resolveConflict s) ops

/-- The warnings `handleConflicts` pushes (skip and the ask fallback). -/
def conflictWarnings (s : Strategy) (conflicts : List ConflictInfo) : List String :=
  match s with
  | Strategy.skip => conflicts.map (fun c => "Skipped conflicted file: " ++ c.filePath)
  | Strategy.ask =>
    conflicts.map (fun c =>
      "Skipped conflicted file (interactive resolution not implemented): " ++ c.filePath)
  | _ => []

/-- `generateFileId` (a digest of `projectId:localPath`; injective on its
arguments, modelled by the concatenation itself). -/
def fileIdOf (pid p : String) : String := pid ++ ":" ++ p

/-- Replace the first local file with this path, or append
(`fs.writeFile` on the local tree). -/
def upsertLocal (locals : List LocalFile) (f : LocalFile) : List LocalFile :=
  match locals with
  | [] => [f]
  | g :: gs => if g.path == f.path then f :: gs else g :: upsertLocal gs f

/-- `SafeSync.executeUpload`: read the local file (`none` = thrown read
error), append the uploaded file remotely (fresh id, `updatedAt` = now, per
the client contract), and save the new sync state. -/
def executeUpload (h : Nat → Nat) (pid : String) (freshId : String → String)
    (now : Nat) (w : World) (op : SyncOperation) : Option World :=
  match findLocal w.locals op.filePath with
  | Option.none => Option.none
  | Option.some lf =>
    let uploaded : RemoteFile :=
      { id := freshId op.filePath, path := op.filePath, content := lf.content,
        updatedAt := now, size := lf.size }
    let entry : SyncStateEntry :=
      { fileId := fileIdOf pid op.filePath, projectId := pid,
        localPath := op.filePath, remoteId := Option.some uploaded.id,
        localHash := h lf.content, remoteHash := Option.some (h lf.content),
        localMtime := lf.mtime, remoteMtime := Option.some now,
        lastSyncTime := now, syncDirection := SyncDirection.upload,
        conflictState := ConflictState.none, backupPath := Option.none,
        size := lf.size, isDeleted := false }
    Option.some
      { w with
        remotes := w.remotes ++ [uploaded],
        syncStates := saveFileState w.syncStates entry }

/-- `SafeSync.executeDownload`: re-list the remote store, find the first file
with the operation's path (`none` = the thrown "Remote file not found"),
write it locally (fresh mtime = now) and save the new sync state. -/
def executeDownload (h : Nat → Nat) (pid : String) (now : Nat) (w : World)
    (op : SyncOperation) : Option World :=
  match w.remotes.find? (fun rf => rf.path == op.filePath) with
  | Option.none => Option.none
  | Option.some rf =>
    let lf : LocalFile :=
      { path := op.filePath, content := rf.content, mtime := now, size := rf.size }
    let entry : SyncStateEntry :=
      { fileId := fileIdOf pid op.filePath, projectId := pid,
        localPath := op.filePath, remoteId := Option.some rf.id,
        localHash := h rf.content, remoteHash := Option.some (h rf.content),
        localMtime := now, remoteMtime := Option.some rf.updatedAt,
        lastSyncTime := now, syncDirection := SyncDirection.download,
        conflictState := ConflictState.none, backupPath := Option.none,
        size := rf.size, isDeleted := false }
    Option.some
      { w with
        locals := upsertLocal w.locals lf,
        syncStates := saveFileState w.syncStates entry }

/-- `SafeSync.executeLocalDelete`: remove the local file if present, then
tombstone the sync state if tracked. -/
def executeLocalDelete (pid : String) (now : Nat) (w : World)
    (op : SyncOperation) : World :=
  let w1 :=
    match findLocal w.locals op.filePath with
    | Option.some _ =>
      { w with locals := w.locals.filter (fun f => f.path != op.filePath) }
    | Option.none => w
  match getFileState w1.syncStates pid op.filePath with
  | Option.some st =>
    { w1 with syncStates :=
        saveFileState w1.syncStates { st with isDeleted := true, lastSyncTime := now } }
  | Option.none => w1

/-- `SafeSync.executeRemoteDelete`: delete the remote file recorded for this
path (by id) and tombstone the sync state. -/
def executeRemoteDelete (pid : String) (now : Nat) (w : World)
    (op : SyncOperation) : World :=
  match getFileState w.syncStates pid op.filePath with
  | Option.some st =>
    match st.remoteId with
    | Option.some rid =>
      { w with
        remotes := w.remotes.filter (fun rf => rf.id != rid),
        syncStates :=
          saveFileState w.syncStates { st with isDeleted := true, lastSyncTime := now } }
    | Option.none => w
  | Option.none => w

/-- `SafeSync.executeOperation`: dispatch on the operation type.  `none`
models a thrown exception (caught by the loop in `executeOperations`). -/
def executeOperation (h : Nat → Nat) (pid : String) (freshId : String → String)
    (now : Nat) (w : World) (op : SyncOperation) : Option World :=
  match op.type with
  | OpType.upload => executeUpload h pid freshId now w op
  | OpType.download => executeDownload h pid now w op
  | OpType.delete_local => Option.some (executeLocalDelete pid now w op)
  | OpType.delete_remote => Option.some (executeRemoteDelete pid now w op)

/-- The accumulator of the `executeOperations` loop. -/
structure RunAcc where
  world : World
  executed : List SyncOperation
  skipped : List SyncOperation
  errors : List String
  warnings : List String
  backupsCreated : Nat
deriving DecidableEq

/-- The warning `executeOperations` pushes when `createBackup` fails. -/
def backupFailWarning (p : String) : String :=
  "Failed to create backup for " ++ p

/-- The error `executeOperations` records when executing an operation throws. -/
def execFailError (op : SyncOperation) : String :=
  "Failed to execute operation for " ++ op.filePath

/-- One iteration of `SafeSync.executeOperations`: attempt the backup first
when required (success counted, failure only warned about), then execute the
operation; a thrown execution error records the error and skips just this
operation. -/
def execStep (h : Nat → Nat) (pid : String) (backupOk : String → Bool)
    (execOk : SyncOperation → Bool) (freshId : String → String) (now : Nat)
    (acc : RunAcc) (op : SyncOperation) : RunAcc :=
  let acc1 :=
    if op.backupRequired then
      if backupOk op.filePath then
        { acc with backupsCreated := acc.backupsCreated + 1 }
      else
        { acc with warnings := acc.warnings ++ [backupFailWarning op.filePath] }
    else acc
  if execOk op then
    match executeOperation h pid freshId now acc1.world op with
    | Option.some w1 =>
      { acc1 with world := w1, executed := acc1.executed ++ [op] }
    | Option.none =>
      { acc1 with
        errors := acc1.errors ++ [execFailError op],
        skipped := acc1.skipped ++ [op] }
  else
    { acc1 with
      errors := acc1.errors ++ [execFailError op],
      skipped := acc1.skipped ++ [op] }

/-- `SafeSync.executeOperations`: the loop over all planned operations. -/
def execAll (h : Nat → Nat) (pid : String) (backupOk : String → Bool)
    (execOk : SyncOperation → Bool) (freshId : String → String) (now : Nat)
    (ops : List SyncOperation) (acc : RunAcc) : RunAcc :=
  ops.foldl (execStep h pid backupOk execOk freshId now) acc

/-- The fields of `SyncResult` the claims mention. -/
structure SyncResult where
  success : Bool
  dryRun : Bool
  operations : List SyncOperation
  executed : List SyncOperation
  skipped : List SyncOperation
  errors : List String
  warnings : List String
  backupsCreated : Nat
deriving DecidableEq

/-- A sync run's outcome: the final world plus the returned result. -/
structure SyncOutcome where
  world : World
  result : SyncResult
deriving DecidableEq

/-- The error-severity messages `sync()` copies into `result.errors`. -/
def issueErrors (issues : List ValidationIssue) : List String :=
  (issues.filter (fun i => i.type == IssueType.error)).map (fun i => i.message)

/-- The warning-severity messages `sync()` copies into `result.warnings`. -/
def issueWarnings (issues : List ValidationIssue) : List String :=
  (issues.filter (fun i => i.type == IssueType.warning)).map (fun i => i.message)

/-- `SafeSync.sync()`: validate (when enabled; abort unless forced),
plan, resolve conflicts, then execute unless dry-run; `success` is
"no errors were recorded". -/
def syncRun (h : Nat → Nat) (opts : SafeSyncOptions) (pid : String)
    (envIssues : List ValidationIssue) (backupOk : String → Bool)
    (execOk : SyncOperation → Bool) (freshId : String → String) (now : Nat)
    (w : World) : SyncOutcome :=
  let vr := validate h envIssues
    { maxConflictCount := opts.maxConflictCount, allowForce := opts.force }
    w.syncStates pid w.locals w.remotes opts.direction
  if opts.validationEnabled && !vr.canProceed && !opts.force then
    { world := w,
      result :=
        { success := false, dryRun := opts.dryRun, operations := [],
          executed := [], skipped := [],
          errors := ["Validation failed. Use --force to override."],
          warnings := [], backupsCreated := 0 } }
  else
    let errs0 := if opts.validationEnabled then issueErrors vr.issues else []
    let warns0 := if opts.validationEnabled then issueWarnings vr.issues else []
    let ops0 := planOperations h opts.direction w.syncStates pid w.locals w.remotes
    let conflicts := if opts.validationEnabled then vr.conflicts else []
    let ops1 := handleConflicts opts.strategy conflicts ops0
    let warns1 := warns0 ++ conflictWarnings opts.strategy conflicts
    if opts.dryRun then
      { world := w,
        result :=
          { success := errs0.isEmpty, dryRun := true, operations := ops1,
            executed := [], skipped := [], errors := errs0, warnings := warns1,
            backupsCreated := 0 } }
    else
      let acc := execAll h pid backupOk execOk freshId now ops1
        { world := w, executed := [], skipped := [], errors := [],
          warnings := warns1, backupsCreated := 0 }
      { world := acc.world,
        result :=
          { success := (errs0 ++ acc.errors).isEmpty, dryRun := false,
            operations := ops1, executed := acc.executed, skipped := acc.skipped,
            errors := errs0 ++ acc.errors, warnings := acc.warnings,
            backupsCreated := acc.backupsCreated } }

/-- `JsonSyncStateDatabase` load: a missing (or corrupt) store file is
treated as "no prior sync". -/
def loadStore : Option StoreData → StoreData
  | Option.none => { syncStates := [], backups := [] }
  | Option.some sd => sd

/-- A whole `sync()` call including database persistence: load the store
file, run, and let `close()` save the (possibly unchanged) state back —
`close()` always rewrites the file because `sync()` always initializes the
database.  Backup entries written during execution are abstracted (planning
never reads them); the sync states are persisted faithfully. -/
def syncWithStore (h : Nat → Nat) (opts : SafeSyncOptions) (pid : String)
    (envIssues : List ValidationIssue) (backupOk : String → Bool)
    (execOk : SyncOperation → Bool) (freshId : String → String) (now : Nat)
    (store : Option StoreData) (locals : List LocalFile)
    (remotes : List RemoteFile) : SyncOutcome × Option StoreData :=
  let sd := loadStore store
  let out := syncRun h opts pid envIssues backupOk execOk freshId now
    { locals := locals, remotes := remotes, syncStates := sd.syncStates }
  (out, Option.some { syncStates := out.world.syncStates, backups := sd.backups })

/-! ### Concrete instances used by counterexamples and witnesses -/

/-- C4 counterexample data: tracked entry whose stored remote-modified time
(1) is older than the last sync time (5). -/
def c4State : SyncStateEntry :=
  { fileId := "f", projectId := "P", localPath := "a", remoteId := Option.none,
    localHash := 1, remoteHash := Option.none, localMtime := 0,
    remoteMtime := Option.some 1, lastSyncTime := 5,
    syncDirection := SyncDirection.both, conflictState := ConflictState.none,
    backupPath := Option.none, size := 0, isDeleted := false }

/-- C4 counterexample data: the matching local file, with changed content
(hash 2 vs stored 1) and mtime (6) newer than last sync (5). -/
def c4File : LocalFile :=
  { path := "a", content := 2, mtime := 6, size := 0 }

/-- C8 witness data: a tracked entry whose stored hash (7) equals the live
hash of its local file. -/
def c8WitnessState : SyncStateEntry :=
  { fileId := "f", projectId := "P", localPath := "w", remoteId := Option.none,
    localHash := 7, remoteHash := Option.none, localMtime := 0,
    remoteMtime := Option.none, lastSyncTime := 1,
    syncDirection := SyncDirection.both, conflictState := ConflictState.none,
    backupPath := Option.none, size := 0, isDeleted := false }

/-- C10 witness data: the single recorded backup of path "a". -/
def c10Backup : BackupEntry :=
  { backupId := "b1", originalPath := "a", backupPath := "bak", createdAt := 3,
    fileHash := 5, projectId := "P", reason := "sync" }

/-- C9 witness data: a backup record whose on-disk file content (4) no longer
hashes to the recorded `fileHash` (5). -/
def c9Backup : BackupEntry :=
  { backupId := "b1", originalPath := "a", backupPath := "bak", createdAt := 3,
    fileHash := 5, projectId := "P", reason := "sync" }

/-- C5 counterexample data: a backup of path "b" (older of two). -/
def c5OtherB1 : BackupEntry :=
  { backupId := "b1", originalPath := "b", backupPath := "pb1", createdAt := 1,
    fileHash := 0, projectId := "P", reason := "sync" }

/-- C5 counterexample data: two backups each of paths "a" and "b". -/
def c5Store : StoreData :=
  { syncStates := [],
    backups :=
      [{ backupId := "a1", originalPath := "a", backupPath := "pa1", createdAt := 1,
         fileHash := 0, projectId := "P", reason := "sync" },
       { backupId := "a2", originalPath := "a", backupPath := "pa2", createdAt := 2,
         fileHash := 0, projectId := "P", reason := "sync" },
       c5OtherB1,
       { backupId := "b2", originalPath := "b", backupPath := "pb2", createdAt := 2,
         fileHash := 0, projectId := "P", reason := "sync" }] }

/-- C5 witness data: three backups of path "a". -/
def c5wStore : StoreData :=
  { syncStates := [],
    backups :=
      [{ backupId := "w1", originalPath := "a", backupPath := "q1", createdAt := 1,
         fileHash := 0, projectId := "P", reason := "sync" },
       { backupId := "w2", originalPath := "a", backupPath := "q2", createdAt := 2,
         fileHash := 0, projectId := "P", reason := "sync" },
       { backupId := "w3", originalPath := "a", backupPath := "q3", createdAt := 3,
         fileHash := 0, projectId := "P", reason := "sync" }] }

/-- C1 data: a tracked entry with stored hash 1 for local path "a". -/
def c1State : SyncStateEntry :=
  { fileId := "f", projectId := "P", localPath := "a", remoteId := Option.none,
    localHash := 1, remoteHash := Option.none, localMtime := 0,
    remoteMtime := Option.none, lastSyncTime := 1,
    syncDirection := SyncDirection.both, conflictState := ConflictState.none,
    backupPath := Option.none, size := 0, isDeleted := false }

/-- C1 data: the matching local file with changed content (hash 2). -/
def c1File : LocalFile := { path := "a", content := 2, mtime := 6, size := 0 }

/-- C1 data: the world before the run. -/
def c1World : World :=
  { locals := [c1File], remotes := [], syncStates := [c1State] }

/-- C1 data: orchestrator options (upload only, validation off, no dry-run). -/
def c1Opts : SafeSyncOptions :=
  { direction := SyncDirection.upload, dryRun := false, validationEnabled := false,
    maxConflictCount := 10, strategy := Strategy.skip, force := false }

/-- C1 data: the planned backup-requiring upload operation. -/
def c1Op : SyncOperation :=
  { type := OpType.upload, filePath := "a", reason := "Local file modified",
    backupRequired := true }

/-- C1 data: the execute-loop accumulator before the operation. -/
def c1Acc : RunAcc :=
  { world := c1World, executed := [], skipped := [], errors := [], warnings := [],
    backupsCreated := 0 }

/-- C1 data: the world after the upload executes (remote gains the file,
state entry replaced). -/
def c1ExecWorld : World :=
  { locals := [c1File],
    remotes := [{ id := "a", path := "a", content := 2, updatedAt := 10, size := 0 }],
    syncStates :=
      [{ fileId := fileIdOf "P" "a", projectId := "P", localPath := "a",
         remoteId := Option.some "a", localHash := 2, remoteHash := Option.some 2,
         localMtime := 6, remoteMtime := Option.some 10, lastSyncTime := 10,
         syncDirection := SyncDirection.upload, conflictState := ConflictState.none,
         backupPath := Option.none, size := 0, isDeleted := false }] }

/-- C2 data: one new local file, so a dry-run still plans an upload. -/
def c2File : LocalFile := { path := "n", content := 3, mtime := 1, size := 0 }

/-- C2 data: dry-run options (validation off, upload direction). -/
def c2Opts : SafeSyncOptions :=
  { direction := SyncDirection.upload, dryRun := true, validationEnabled := false,
    maxConflictCount := 10, strategy := Strategy.skip, force := false }

/-- The remote files listed under one path (upload appends, so a path can
list several files; planning and conflict detection visit each). -/
def remotesAt (rs : List RemoteFile) (p : String) : List RemoteFile :=
  rs.filter (fun rf => rf.path == p)

/-- Which operation types a conflict-resolution strategy removes from the
operation set for a conflicted path. -/
def strategyRemoves (s : Strategy) (t : OpType) : Prop :=
  match s with
  | Strategy.skip => True
  | Strategy.ask => True
  | Strategy.local_wins => t = OpType.download
  | Strategy.remote_wins => t = OpType.upload
  | Strategy.backup_and_merge => False

/-- All remote timestamps are at most `now` (sane clocks: the remote never
reports a modification from the future). -/
def RemoteTimes (w : World) (now : Nat) : Prop :=
  ∀ rf ∈ w.remotes, rf.updatedAt ≤ now

/-- After a path's operation executed at time `now`, its slot is fresh: a
sync state exists, stamped `now`, whose stored hash matches the local file. -/
def FreshSlot (h : Nat → Nat) (pid : String) (now : Nat) (w : World) (p : String) :
    Prop :=
  ∃ st, getFileState w.syncStates pid p = Option.some st ∧ st.lastSyncTime = now ∧
    (∀ f, findLocal w.locals p = Option.some f → st.localHash = h f.content)

/-- The conflict list `sync()` hands to `handleConflicts`: the validator's
conflicts when validation is enabled, nothing otherwise. -/
def runConflicts (h : Nat → Nat) (opts : SafeSyncOptions) (pid : String)
    (w : World) : List ConflictInfo :=
  if opts.validationEnabled then
    conflictsFor h w.syncStates pid w.locals w.remotes opts.direction
  else []

/-- The post-conflict-resolution operation list of a (non-aborted) run. -/
def runOps (h : Nat → Nat) (opts : SafeSyncOptions) (pid : String)
    (w : World) : List SyncOperation :=
  handleConflicts opts.strategy (runConflicts h opts pid w)
    (planOperations h opts.direction w.syncStates pid w.locals w.remotes)

/-- The accumulator `executeOperations` starts from in a non-dry run. -/
def runAcc0 (h : Nat → Nat) (opts : SafeSyncOptions) (pid : String)
    (envIssues : List ValidationIssue) (w : World) : RunAcc :=
  { world := w, executed := [], skipped := [], errors := [],
    warnings := (if opts.validationEnabled then issueWarnings envIssues else []) ++
      conflictWarnings opts.strategy (runConflicts h opts pid w),
    backupsCreated := 0 }

/-- C6 witness data: one new local file to be uploaded by the first run. -/
def c6File : LocalFile := { path := "a", content := 1, mtime := 0, size := 0 }

/-- C6 witness data: a real (non-dry) validated run in both directions. -/
def c6Opts : SafeSyncOptions :=
  { direction := SyncDirection.both, dryRun := false, validationEnabled := true,
    maxConflictCount := 10, strategy := Strategy.skip, force := false }

/-- C6 witness data: the starting world (nothing remote, nothing tracked). -/
def c6World : World := { locals := [c6File], remotes := [], syncStates := [] }

/-! ## General lemmas about the store and sorting -/

theorem mem_sortByNewest {a : BackupEntry} {l : List BackupEntry} :
    a ∈ sortByNewest l ↔ a ∈ l :=
  (List.perm_insertionSort newerEq l).mem_iff

theorem sorted_sortByNewest (l : List BackupEntry) :
    List.Sorted newerEq (sortByNewest l) :=
  List.sorted_insertionSort newerEq l

theorem sortByNewest_eq_nil {l : List BackupEntry} :
    sortByNewest l = [] ↔ l = [] := by
  constructor
  · intro hs
    have := (List.perm_insertionSort newerEq l).length_eq
    rw [sortByNewest] at hs
    rw [hs] at this
    exact List.length_eq_zero.mp this.symm
  · intro hl
    subst hl
    rfl

/-- The head of the newest-first sort dominates every element of the list. -/
theorem head_sortByNewest_max {l : List BackupEntry} {b0 : BackupEntry}
    {rest : List BackupEntry} (hs : sortByNewest l = b0 :: rest) :
    ∀ b ∈ l, b.createdAt ≤ b0.createdAt := by
  intro b hb
  have hmem : b ∈ sortByNewest l := mem_sortByNewest.mpr hb
  rw [hs] at hmem
  rcases List.mem_cons.mp hmem with hb0 | hbr
  · subst hb0
    exact Nat.le_refl _
  · have hsort := sorted_sortByNewest l
    rw [hs] at hsort
    exact List.rel_of_sorted_cons hsort b hbr

/-- If `b0` is the strict maximum of `l` by creation time, it heads the sort. -/
theorem sortByNewest_head_of_strict_max {l : List BackupEntry} {b0 : BackupEntry}
    (hmem : b0 ∈ l) (hmax : ∀ b ∈ l, b ≠ b0 → b.createdAt < b0.createdAt) :
    ∃ rest, sortByNewest l = b0 :: rest := by
  cases hs : sortByNewest l with
  | nil =>
    rw [sortByNewest_eq_nil.mp hs] at hmem
    exact absurd hmem (List.not_mem_nil b0)
  | cons hd tl =>
    refine ⟨tl, ?_⟩
    by_cases hhd : hd = b0
    · rw [hhd]
    · have hhl : hd ∈ l := mem_sortByNewest.mp (hs ▸ List.mem_cons_self hd tl)
      have hlt : hd.createdAt < b0.createdAt := hmax hd hhl hhd
      have hgle : b0.createdAt ≤ hd.createdAt := head_sortByNewest_max hs b0 hmem
      exact absurd (Nat.lt_of_le_of_lt hgle hlt) (Nat.lt_irrefl _)

/-- The key test used by `getFileState`, as a propositional equivalence. -/
theorem keyMatch_eq_false {x : SyncStateEntry} {pid p : String}
    (hne : ¬(pid = x.projectId ∧ p = x.localPath)) :
    (x.projectId == pid && x.localPath == p) = false := by
  rw [Bool.and_eq_false_iff]
  rcases not_and_or.mp hne with hc | hc
  · exact Or.inl (by simp [beq_eq_false_iff_ne, Ne.symm hc])
  · exact Or.inr (by simp [beq_eq_false_iff_ne, Ne.symm hc])

/-- `getFileState` after `saveFileState`: the saved entry is found under its
own key, other keys are untouched. -/
theorem getFileState_saveFileState (sts : List SyncStateEntry)
    (e : SyncStateEntry) (pid p : String) :
    getFileState (saveFileState sts e) pid p =
      if pid = e.projectId ∧ p = e.localPath then Option.some e
      else getFileState sts pid p := by
  induction sts with
  | nil =>
    by_cases h1 : pid = e.projectId ∧ p = e.localPath
    · obtain ⟨ha, hb⟩ := h1
      subst ha
      subst hb
      simp [saveFileState, getFileState, List.find?]
    · rw [if_neg h1]
      have hf := keyMatch_eq_false (x := e) h1
      simp [saveFileState, getFileState, List.find?, hf]
  | cons x xs ih =>
    show getFileState
        (if x.projectId == e.projectId && x.localPath == e.localPath then e :: xs
         else x :: saveFileState xs e) pid p = _
    by_cases hx : (x.projectId == e.projectId && x.localPath == e.localPath) = true
    · rw [if_pos hx]
      have hx1 : x.projectId = e.projectId ∧ x.localPath = e.localPath := by
        simpa using hx
      by_cases h1 : pid = e.projectId ∧ p = e.localPath
      · obtain ⟨ha, hb⟩ := h1
        subst ha
        subst hb
        simp [getFileState, List.find?]
      · rw [if_neg h1]
        have hef := keyMatch_eq_false (x := e) h1
        have hxf : (x.projectId == pid && x.localPath == p) = false := by
          rw [hx1.1, hx1.2]
          exact hef
        simp [getFileState, List.find?, hef, hxf]
    · rw [if_neg hx]
      by_cases hq : (x.projectId == pid && x.localPath == p) = true
      · by_cases h1 : pid = e.projectId ∧ p = e.localPath
        · exfalso
          apply hx
          have hq1 : x.projectId = pid ∧ x.localPath = p := by simpa using hq
          simp [hq1.1, hq1.2, h1.1, h1.2]
        · rw [if_neg h1]
          simp [getFileState, List.find?, hq]
      · have hqf : (x.projectId == pid && x.localPath == p) = false :=
          Bool.eq_false_iff.mpr hq
        calc getFileState (x :: saveFileState xs e) pid p
            = getFileState (saveFileState xs e) pid p := by
              simp [getFileState, List.find?, hqf]
          _ = if pid = e.projectId ∧ p = e.localPath then Option.some e
              else getFileState xs pid p := ih
          _ = if pid = e.projectId ∧ p = e.localPath then Option.some e
              else getFileState (x :: xs) pid p := by
              by_cases h1 : pid = e.projectId ∧ p = e.localPath
              · rw [if_pos h1, if_pos h1]
              · rw [if_neg h1, if_neg h1]
                simp [getFileState, List.find?, hqf]

/-! ## C7: the canProceed gate of validate -/

/-- C7: `validate()` returns `canProceed = false` exactly when some check
produced an error-severity issue, or the number of detected conflicts
strictly exceeds `maxConflictCount` and the force override is not set. -/
theorem validate_canProceed_c7 (h : Nat → Nat) (envIssues : List ValidationIssue)
    (opts : ValidatorOptions) (sts : List SyncStateEntry) (pid : String)
    (locals : List LocalFile) (remotes : List RemoteFile) (dir : SyncDirection) :
    (validate h envIssues opts sts pid locals remotes dir).canProceed = false ↔
      ((∃ i ∈ envIssues, i.type = IssueType.error) ∨
        (opts.maxConflictCount < (conflictsFor h sts pid locals remotes dir).length ∧
          opts.allowForce = false)) := by
  simp only [validate, Bool.and_eq_false_iff, Bool.not_eq_false, Bool.not_eq_false',
    Bool.or_eq_false_iff, List.any_eq_true, beq_iff_eq, decide_eq_true_eq,
    decide_eq_false_iff_not, Not.imp, not_lt]

/-! ## Pointwise characterizations of planning and local-file validation -/

theorem uploadOpFor_path {h : Nat → Nat} {sts : List SyncStateEntry} {pid : String}
    {g : LocalFile} {op : SyncOperation}
    (hs : uploadOpFor h sts pid g = Option.some op) : op.filePath = g.path := by
  unfold uploadOpFor at hs
  cases hgs : getFileState sts pid g.path with
  | none =>
    simp only [hgs] at hs
    cases hs
    rfl
  | some st =>
    simp only [hgs] at hs
    by_cases hd : h g.content ≠ st.localHash
    · simp only [if_pos hd] at hs
      cases hs
      rfl
    · simp only [if_neg hd] at hs
      cases hs

theorem uploadOpFor_none_of_unchanged {h : Nat → Nat} {sts : List SyncStateEntry}
    {pid : String} {g : LocalFile} {st : SyncStateEntry}
    (hst : getFileState sts pid g.path = Option.some st)
    (heq : h g.content = st.localHash) :
    uploadOpFor h sts pid g = Option.none := by
  unfold uploadOpFor
  simp only [hst]
  exact if_neg (fun hne => hne heq)

theorem uploadOpFor_modified {h : Nat → Nat} {sts : List SyncStateEntry}
    {pid : String} {g : LocalFile} {op : SyncOperation}
    (hs : uploadOpFor h sts pid g = Option.some op)
    (hr : op.reason = "Local file modified") :
    ∃ st, getFileState sts pid g.path = Option.some st ∧ h g.content ≠ st.localHash := by
  unfold uploadOpFor at hs
  cases hgs : getFileState sts pid g.path with
  | none =>
    simp only [hgs] at hs
    cases hs
    simp at hr
  | some st =>
    simp only [hgs] at hs
    by_cases hd : h g.content ≠ st.localHash
    · exact ⟨st, rfl, hd⟩
    · simp only [if_neg hd] at hs
      cases hs

/-- C8: a tracked local file whose live hash equals the stored hash is never
planned for upload, whatever its modification timestamp (the timestamp is not
even consulted by `planUploadOperations`); and every "Local file modified"
upload stems from a hash mismatch against the stored hash. -/
theorem planUpload_hash_authority_c8 (h : Nat → Nat) (sts : List SyncStateEntry)
    (pid : String) (locals : List LocalFile)
    (hnd : (locals.map (fun f => f.path)).Nodup) :
    (∀ f ∈ locals, ∀ st, getFileState sts pid f.path = Option.some st →
      h f.content = st.localHash →
      ∀ op ∈ planUploadOperations h sts pid locals, op.filePath ≠ f.path) ∧
    (∀ op ∈ planUploadOperations h sts pid locals,
      op.reason = "Local file modified" →
      ∃ f ∈ locals, ∃ st, op.filePath = f.path ∧
        getFileState sts pid f.path = Option.some st ∧
        h f.content ≠ st.localHash) := by
  constructor
  · intro f hf st hst heq op hop hpath
    obtain ⟨g, hg, hgop⟩ := List.mem_filterMap.mp hop
    have hgp : g.path = f.path := (uploadOpFor_path hgop) ▸ hpath
    have hgf : g = f := List.inj_on_of_nodup_map hnd hg hf hgp
    subst hgf
    rw [uploadOpFor_none_of_unchanged hst heq] at hgop
    cases hgop
  · intro op hop hr
    obtain ⟨g, hg, hgop⟩ := List.mem_filterMap.mp hop
    obtain ⟨st, hst, hne⟩ := uploadOpFor_modified hgop hr
    exact ⟨g, hg, st, uploadOpFor_path hgop, hst, hne⟩

theorem localConflictFor_path {h : Nat → Nat} {sts : List SyncStateEntry}
    {pid : String} {g : LocalFile} {c : ConflictInfo}
    (hs : localConflictFor h sts pid g = Option.some c) : c.filePath = g.path := by
  unfold localConflictFor at hs
  cases hgs : getFileState sts pid g.path with
  | none =>
    simp only [hgs] at hs
    cases hs
  | some st =>
    simp only [hgs] at hs
    by_cases hd : h g.content ≠ st.localHash
    · simp only [if_pos hd] at hs
      cases hrm : st.remoteMtime with
      | none =>
        simp only [hrm] at hs
        cases hs
      | some rm =>
        simp only [hrm] at hs
        by_cases hm : st.lastSyncTime < g.mtime
        · simp only [if_pos hm] at hs
          cases hs
          rfl
        · simp only [if_neg hm] at hs
          cases hs
    · simp only [if_neg hd] at hs
      cases hs

theorem localConflictFor_some_iff {h : Nat → Nat} {sts : List SyncStateEntry}
    {pid : String} {g : LocalFile} {st : SyncStateEntry}
    (hst : getFileState sts pid g.path = Option.some st) :
    (∃ c, localConflictFor h sts pid g = Option.some c) ↔
      (h g.content ≠ st.localHash ∧ st.remoteMtime ≠ Option.none ∧
        st.lastSyncTime < g.mtime) := by
  unfold localConflictFor
  simp only [hst]
  by_cases hd : h g.content ≠ st.localHash
  · simp only [if_pos hd]
    cases hrm : st.remoteMtime with
    | none => simp [hd]
    | some rm =>
      by_cases hm : st.lastSyncTime < g.mtime
      · simp [hd, hm, hrm]
      · simp [hd, hm, hrm]
  · simp only [if_neg hd]
    simp [hd]

/-- C4 (amended): for a tracked local file whose live hash differs from the
stored hash, `validateLocalFiles` flags a conflict exactly when the stored
entry records *some* remote-modified time and the local file's own mtime is
newer than the last sync time; the stored remote-modified time is never
compared against the last sync time.  An unchanged hash never yields a
conflict. -/
theorem validateLocalFiles_conflict_rule_c4 (h : Nat → Nat)
    (sts : List SyncStateEntry) (pid : String) (locals : List LocalFile)
    (hnd : (locals.map (fun f => f.path)).Nodup) :
    (∀ f ∈ locals, ∀ st, getFileState sts pid f.path = Option.some st →
      h f.content ≠ st.localHash →
      ((∃ c ∈ validateLocalConflicts h sts pid locals, c.filePath = f.path) ↔
        (st.remoteMtime ≠ Option.none ∧ st.lastSyncTime < f.mtime))) ∧
    (∀ f ∈ locals, ∀ st, getFileState sts pid f.path = Option.some st →
      h f.content = st.localHash →
      ∀ c ∈ validateLocalConflicts h sts pid locals, c.filePath ≠ f.path) := by
  constructor
  · intro f hf st hst hne
    constructor
    · rintro ⟨c, hc, hcp⟩
      obtain ⟨g, hg, hgc⟩ := List.mem_filterMap.mp hc
      have hgp : g.path = f.path := (localConflictFor_path hgc) ▸ hcp
      have hgf : g = f := List.inj_on_of_nodup_map hnd hg hf hgp
      subst hgf
      have := (localConflictFor_some_iff (h := h) hst).mp ⟨c, hgc⟩
      exact ⟨this.2.1, this.2.2⟩
    · rintro ⟨hrm, hm⟩
      obtain ⟨c, hc⟩ := (localConflictFor_some_iff (h := h) hst).mpr ⟨hne, hrm, hm⟩
      exact ⟨c, List.mem_filterMap.mpr ⟨f, hf, hc⟩, localConflictFor_path hc⟩
  · intro f hf st hst heq c hc hcp
    obtain ⟨g, hg, hgc⟩ := List.mem_filterMap.mp hc
    have hgp : g.path = f.path := (localConflictFor_path hgc) ▸ hcp
    have hgf : g = f := List.inj_on_of_nodup_map hnd hg hf hgp
    subst hgf
    have := (localConflictFor_some_iff (h := h) hst).mp ⟨c, hgc⟩
    exact this.1 heq

/-- C4 counterexample: the stored remote-modified time (1) is *older* than
the last sync time (5), so per the claim no conflict should be flagged for
this hash-changed file; the code flags one anyway, because it tests the
local mtime (6 > 5) and only the presence of a remote-modified time. -/
theorem validateLocalFiles_c4_counterexample :
    (validateLocalConflicts (fun n => n) [c4State] "P" [c4File]).length = 1 ∧
      c4State.remoteMtime = Option.some 1 ∧ c4State.lastSyncTime = 5 ∧
      (∀ rm, c4State.remoteMtime = Option.some rm → rm < c4State.lastSyncTime) := by
  decide

/-- Witness for C8 at a concrete input: an unchanged tracked file (stored
hash 7 = live hash 7) yields no upload operation even though its mtime (99)
is far newer than the last sync time. -/
theorem planUpload_hash_authority_c8_witness :
    ((([{ path := "w", content := 7, mtime := 99, size := 0 }] :
        List LocalFile).map (fun f => f.path)).Nodup ∧
      getFileState [c8WitnessState] "P" "w" = Option.some c8WitnessState ∧
      (fun n : Nat => n) 7 = c8WitnessState.localHash) ∧
    (∀ op ∈ planUploadOperations (fun n => n) [c8WitnessState] "P"
        [{ path := "w", content := 7, mtime := 99, size := 0 }],
      op.filePath ≠ "w") := by
  refine ⟨⟨by decide, by decide, by decide⟩, ?_⟩
  intro op hop
  exact (planUpload_hash_authority_c8 (fun n => n) [c8WitnessState] "P"
    [{ path := "w", content := 7, mtime := 99, size := 0 }] (by decide)).1
    { path := "w", content := 7, mtime := 99, size := 0 } (by decide)
    c8WitnessState (by decide) (by decide) op hop

/-- Witness for C4 (amended) at a concrete input: with a remote-modified
time recorded and local mtime newer than last sync, the conflict is flagged. -/
theorem validateLocalFiles_conflict_rule_c4_witness :
    (([c4File].map (fun f => f.path)).Nodup ∧
      getFileState [c4State] "P" c4File.path = Option.some c4State ∧
      (fun n : Nat => n) c4File.content ≠ c4State.localHash) ∧
    (∃ c ∈ validateLocalConflicts (fun n => n) [c4State] "P" [c4File],
      c.filePath = c4File.path) := by
  refine ⟨⟨by decide, by decide, by decide⟩, ?_⟩
  exact ((validateLocalFiles_conflict_rule_c4 (fun n => n) [c4State] "P" [c4File]
    (by decide)).1 c4File (by decide) c4State (by decide) (by decide)).mpr
    ⟨by decide, by decide⟩

/-! ## C10: hasFileChangedSinceBackup -/

theorem listBackups_eq_sort_backupsForPath (bs : List BackupEntry) (pid q : String)
    (hq : q ≠ "") :
    listBackups bs pid (Option.some q) = sortByNewest (backupsForPath bs pid q) := by
  unfold listBackups backupsForPath
  congr 1
  apply List.filter_congr
  intro b _
  simp [matchesPathFilter, hq]

/-- C10: `hasFileChangedSinceBackup` returns true when the file cannot be
read or no backup of that path is recorded; otherwise it returns true exactly
when the current content hash differs from the `fileHash` of the most
recently created backup of that path (the unique maximum by creation time,
which heads the newest-first listing). -/
theorem hasFileChangedSinceBackup_c10 (h : Nat → Nat) (pid : String)
    (cwdRel : String → String) (st : StoreData) (fs : Fs) (filePath : String) :
    (fs.read filePath = Option.none →
      hasFileChangedSinceBackup h pid cwdRel st fs filePath = true) ∧
    (backupsForPath st.backups pid (cwdRel filePath) = [] → cwdRel filePath ≠ "" →
      hasFileChangedSinceBackup h pid cwdRel st fs filePath = true) ∧
    (∀ c b0, fs.read filePath = Option.some c → cwdRel filePath ≠ "" →
      b0 ∈ backupsForPath st.backups pid (cwdRel filePath) →
      (∀ b ∈ backupsForPath st.backups pid (cwdRel filePath), b ≠ b0 →
        b.createdAt < b0.createdAt) →
      (hasFileChangedSinceBackup h pid cwdRel st fs filePath = true ↔
        h c ≠ b0.fileHash)) := by
  refine ⟨?_, ?_, ?_⟩
  · intro hr
    simp [hasFileChangedSinceBackup, hr]
  · intro hgrp hq
    unfold hasFileChangedSinceBackup
    cases hr : fs.read filePath with
    | none => rfl
    | some c =>
      rw [listBackups_eq_sort_backupsForPath st.backups pid (cwdRel filePath) hq, hgrp]
      rfl
  · intro c b0 hr hq hmem hmax
    obtain ⟨rest, hsort⟩ := sortByNewest_head_of_strict_max hmem hmax
    unfold hasFileChangedSinceBackup
    rw [hr, listBackups_eq_sort_backupsForPath st.backups pid (cwdRel filePath) hq,
      hsort]
    simp [bne_iff_ne]

/-- Witness for C10 at a concrete input: one recorded backup of path "a" with
`fileHash` 5, live content 6 — the function reports "changed". -/
theorem hasFileChangedSinceBackup_c10_witness :
    ((Fs.read ⟨[("a", 6)]⟩ "a" = Option.some 6 ∧ ("a" : String) ≠ "" ∧
      c10Backup ∈ backupsForPath [c10Backup] "P" "a" ∧
      (∀ b ∈ backupsForPath [c10Backup] "P" "a", b ≠ c10Backup →
        b.createdAt < c10Backup.createdAt)) ∧
      (hasFileChangedSinceBackup (fun n => n) "P" (fun p => p)
        { syncStates := [], backups := [c10Backup] } ⟨[("a", 6)]⟩ "a" = true ↔
        (fun n : Nat => n) 6 ≠ c10Backup.fileHash)) := by
  refine ⟨⟨by decide, by decide, by decide, by decide⟩, ?_⟩
  exact (hasFileChangedSinceBackup_c10 (fun n => n) "P" (fun p => p)
    { syncStates := [], backups := [c10Backup] } ⟨[("a", 6)]⟩ "a").2.2 6 c10Backup
    (by decide) (by decide) (by decide) (by decide)

/-! ## C9: restoreFromBackup -/

/-- C9: `restoreFromBackup` succeeds only if the backup record exists for
this project, its backup file is still readable on disk, and the restored
copy re-hashes to the recorded `fileHash`; a post-copy hash mismatch yields
failure. -/
theorem restoreFromBackup_c9 (h : Nat → Nat) (pid : String) (st : StoreData)
    (fs : Fs) (bid : String) (targetPath : Option String) (written : Nat → Nat) :
    ((restoreFromBackup h pid st fs bid targetPath written).1.success = true →
      ∃ b ∈ st.backups, b.projectId = pid ∧ b.backupId = bid ∧
        ∃ c, fs.read b.backupPath = Option.some c ∧ h (written c) = b.fileHash) ∧
    (∀ b c,
      (listBackups st.backups pid Option.none).find? (fun x => x.backupId == bid) =
        Option.some b →
      fs.read b.backupPath = Option.some c →
      h (written c) ≠ b.fileHash →
      (restoreFromBackup h pid st fs bid targetPath written).1.success = false) := by
  constructor
  · intro hsucc
    unfold restoreFromBackup at hsucc
    cases hf : (listBackups st.backups pid Option.none).find?
        (fun x => x.backupId == bid) with
    | none =>
      simp only [hf] at hsucc
      cases hsucc
    | some b =>
      simp only [hf] at hsucc
      cases hrd : fs.read b.backupPath with
      | none =>
        simp only [hrd] at hsucc
        cases hsucc
      | some c =>
        simp only [hrd] at hsucc
        by_cases hh : h (written c) ≠ b.fileHash
        · simp only [if_pos hh] at hsucc
          cases hsucc
        · have hmemL : b ∈ listBackups st.backups pid Option.none :=
            List.mem_of_find?_eq_some hf
          have hmemF := mem_sortByNewest.mp hmemL
          have hmem := List.mem_filter.mp hmemF
          have hproj : b.projectId = pid := by
            have := hmem.2
            simp [matchesPathFilter] at this
            exact this
          have hbid : b.backupId = bid := by
            have := List.find?_some hf
            simpa using this
          exact ⟨b, hmem.1, hproj, hbid, c, hrd, not_ne_iff.mp hh⟩
  · intro b c hf hrd hh
    unfold restoreFromBackup
    simp only [hf, hrd, if_pos hh]

/-- Witness for C9 at a concrete input: a recorded backup whose file content
re-hashes to a different value than the recorded `fileHash` (4 vs 5) makes
the restore fail. -/
theorem restoreFromBackup_c9_witness :
    (((listBackups [c9Backup] "P" Option.none).find?
        (fun x => x.backupId == "b1") = Option.some c9Backup ∧
      Fs.read ⟨[("bak", 4)]⟩ c9Backup.backupPath = Option.some 4 ∧
      (fun n : Nat => n) ((fun n : Nat => n) 4) ≠ c9Backup.fileHash) ∧
      (restoreFromBackup (fun n => n) "P" { syncStates := [], backups := [c9Backup] }
        ⟨[("bak", 4)]⟩ "b1" Option.none (fun n => n)).1.success = false) := by
  refine ⟨⟨by decide, by decide, by decide⟩, ?_⟩
  exact (restoreFromBackup_c9 (fun n => n) "P"
    { syncStates := [], backups := [c9Backup] } ⟨[("bak", 4)]⟩ "b1" Option.none
    (fun n => n)).2 c9Backup 4 (by decide) (by decide) (by decide)

/-! ## Cleanup machinery: characterizing cleanupOldBackups -/

theorem Fs.read_write_self (fs : Fs) (p : String) (c : Nat) :
    (fs.write p c).read p = Option.some c := by
  show Fs.read ⟨Fs.writeList p c fs.files⟩ p = Option.some c
  induction fs.files with
  | nil => simp [Fs.writeList, Fs.read, List.find?]
  | cons e es ih =>
    by_cases he : e.1 == p
    · simp [Fs.writeList, he, Fs.read, List.find?]
    · simp only [Fs.writeList, he, if_false, Bool.false_eq_true]
      simpa [Fs.read, List.find?, he] using ih

theorem Fs.read_remove_self (fs : Fs) (p : String) :
    (fs.remove p).read p = Option.none := by
  unfold Fs.remove Fs.read
  induction fs.files with
  | nil => rfl
  | cons e es ih =>
    by_cases he : e.1 = p
    · simp only [List.filter_cons, he, bne_self_eq_false, Bool.false_eq_true,
        if_false]
      exact ih
    · have hb : (e.1 != p) = true := by simp [bne, he]
      have hq : (e.1 == p) = false := by simp [he]
      simp only [List.filter_cons, hb, if_true, List.find?_cons, hq]
      exact ih

theorem Fs.read_remove_ne (fs : Fs) (p q : String) (hne : p ≠ q) :
    (fs.remove p).read q = fs.read q := by
  unfold Fs.remove Fs.read
  congr 1
  induction fs.files with
  | nil => rfl
  | cons e es ih =>
    by_cases he : e.1 = p
    · have hb : (e.1 != p) = false := by simp [bne, he]
      have hq : (e.1 == q) = false := by simp [he, hne]
      simpa [List.filter_cons, hb, List.find?_cons, hq] using ih
    · have hb : (e.1 != p) = true := by simp [bne, he]
      by_cases hq : e.1 = q
      · simp [List.filter_cons, hb, List.find?_cons, hq, Ne.symm hne]
      · have hq2 : (e.1 == q) = false := by simp [hq]
        simpa [List.filter_cons, hb, List.find?_cons, hq2] using ih

/-- The record side of one `deleteBackup` call is a filter on the id. -/
theorem deleteBackup_backups (st : StoreData) (fs : Fs) (bid : String) :
    (deleteBackup st fs bid).1.backups =
      st.backups.filter (fun x => x.backupId != bid) := by
  unfold deleteBackup
  cases hf : st.backups.find? (fun b => b.backupId == bid) with
  | none =>
    have hall := List.find?_eq_none.mp hf
    have : st.backups.filter (fun x => x.backupId != bid) = st.backups := by
      rw [List.filter_eq_self]
      intro a ha
      have := hall a ha
      simpa [bne] using this
    rw [this]
  | some b => rfl

/-- The cleanup fold keeps exactly the records whose id is not slated for
deletion. -/
theorem cleanup_fold_backups (ds : List BackupEntry) (st : StoreData) (fs : Fs) :
    ((ds.foldl (fun acc b => deleteBackup acc.1 acc.2 b.backupId) (st, fs)).1).backups =
      st.backups.filter (fun x => !(ds.any (fun d => d.backupId == x.backupId))) := by
  induction ds generalizing st fs with
  | nil => simp
  | cons d ds ih =>
    rw [List.foldl_cons]
    have hstep :
        (ds.foldl (fun acc b => deleteBackup acc.1 acc.2 b.backupId)
          (deleteBackup st fs d.backupId)).1.backups =
        ((deleteBackup st fs d.backupId).1).backups.filter
          (fun x => !(ds.any (fun e => e.backupId == x.backupId))) := by
      have := ih (deleteBackup st fs d.backupId).1 (deleteBackup st fs d.backupId).2
      simpa using this
    rw [hstep, deleteBackup_backups, List.filter_filter]
    apply List.filter_congr
    intro x _
    have hsymm : (d.backupId == x.backupId) = (x.backupId == d.backupId) := by
      by_cases hx : x.backupId = d.backupId
      · simp [hx]
      · simp [hx, Ne.symm hx]
    simp [List.any_cons, Bool.not_or, bne, hsymm, Bool.and_comm]

/-- The filesystem side of the cleanup fold never touches a path that none of
the deleted records points at. -/
theorem cleanup_fold_fs_read (ds : List BackupEntry) (st : StoreData) (fs : Fs)
    (q : String)
    (hd : ∀ d ∈ ds, ∀ x ∈ st.backups, x.backupId = d.backupId → x.backupPath ≠ q) :
    ((ds.foldl (fun acc b => deleteBackup acc.1 acc.2 b.backupId) (st, fs)).2).read q =
      fs.read q := by
  induction ds generalizing st fs with
  | nil => rfl
  | cons d ds ih =>
    rw [List.foldl_cons]
    have hsub : ∀ x ∈ (deleteBackup st fs d.backupId).1.backups, x ∈ st.backups := by
      intro x hx
      rw [deleteBackup_backups] at hx
      exact (List.mem_filter.mp hx).1
    have hrec := ih (deleteBackup st fs d.backupId).1 (deleteBackup st fs d.backupId).2
      (fun e he x hx hid => hd e (List.mem_cons_of_mem d he) x (hsub x hx) hid)
    rw [hrec]
    unfold deleteBackup
    cases hf : st.backups.find? (fun b => b.backupId == d.backupId) with
    | none => rfl
    | some x =>
      have hxmem : x ∈ st.backups := List.mem_of_find?_eq_some hf
      have hxid : x.backupId = d.backupId := by
        have := List.find?_some hf
        simpa using this
      exact Fs.read_remove_ne fs x.backupPath q
        (hd d (List.mem_cons_self d ds) x hxmem hxid)

/-- Every stale backup is one of the project's records. -/
theorem mem_of_mem_staleBackups {bs : List BackupEntry} {pid : String} {n : Nat}
    {d : BackupEntry} (hd : d ∈ staleBackups bs pid n) :
    d ∈ bs ∧ d.projectId = pid := by
  unfold staleBackups at hd
  obtain ⟨p, _, hdp⟩ := List.mem_flatMap.mp hd
  have hds : d ∈ sortByNewest (backupsForPath bs pid p) :=
    List.mem_of_mem_drop hdp
  have hdg : d ∈ backupsForPath bs pid p := mem_sortByNewest.mp hds
  have := List.mem_filter.mp hdg
  refine ⟨this.1, ?_⟩
  have h2 := this.2
  simp at h2
  exact h2.1

theorem mem_firstDedupAux (l : List String) :
    ∀ (seen : List String) (x : String),
      x ∈ firstDedupAux seen l ↔ (x ∈ l ∧ x ∉ seen) := by
  induction l with
  | nil => simp [firstDedupAux]
  | cons p ps ih =>
    intro seen x
    unfold firstDedupAux
    by_cases hp : p ∈ seen
    · rw [if_pos hp, ih seen x]
      constructor
      · intro hh
        exact ⟨List.mem_cons_of_mem p hh.1, hh.2⟩
      · intro hh
        rcases List.mem_cons.mp hh.1 with hx | hx
        · exact absurd (hx ▸ hp) hh.2
        · exact ⟨hx, hh.2⟩
    · rw [if_neg hp]
      by_cases hx : x = p
      · subst hx
        simp [hp]
      · simp only [List.mem_cons, hx, false_or]
        rw [ih (p :: seen) x]
        simp [List.mem_cons, hx]

theorem mem_firstDedup (l : List String) (x : String) :
    x ∈ firstDedup l ↔ x ∈ l := by
  unfold firstDedup
  rw [mem_firstDedupAux]
  simp

/-- With globally unique backup ids, a project record's id is slated for
deletion exactly when the record sits beyond the newest `n` of its own
path group. -/
theorem staleBackups_id_iff {bs : List BackupEntry} {pid : String} {n : Nat}
    {b : BackupEntry} (hids : (bs.map (fun x => x.backupId)).Nodup)
    (hb : b ∈ bs) (hproj : b.projectId = pid) :
    ((staleBackups bs pid n).any (fun d => d.backupId == b.backupId) = true ↔
      b ∈ (sortByNewest (backupsForPath bs pid b.originalPath)).drop n) := by
  constructor
  · intro ha
    obtain ⟨d, hd, hdb⟩ := List.any_eq_true.mp ha
    have hdbs := mem_of_mem_staleBackups hd
    have hdid : d.backupId = b.backupId := by simpa using hdb
    have hdbeq : d = b := List.inj_on_of_nodup_map hids hdbs.1 hb hdid
    subst hdbeq
    unfold staleBackups at hd
    obtain ⟨p, _, hdp⟩ := List.mem_flatMap.mp hd
    have hdg : d ∈ backupsForPath bs pid p :=
      mem_sortByNewest.mp (List.mem_of_mem_drop hdp)
    have hpp : d.originalPath = p := by
      have := (List.mem_filter.mp hdg).2
      simp at this
      exact this.2
    rw [hpp]
    exact hdp
  · intro hdrop
    apply List.any_eq_true.mpr
    refine ⟨b, ?_, by simp⟩
    unfold staleBackups
    apply List.mem_flatMap.mpr
    refine ⟨b.originalPath, ?_, hdrop⟩
    rw [mem_firstDedup]
    apply List.mem_map.mpr
    exact ⟨b, List.mem_filter.mpr ⟨hb, by simp [hproj]⟩, rfl⟩

/-- After `cleanupOldBackups`, a record of the project survives iff it is
within the newest `n` of its path group; records of other projects always
survive. -/
theorem cleanupOldBackups_mem (st : StoreData) (fs : Fs) (pid : String) (n : Nat)
    (hids : (st.backups.map (fun x => x.backupId)).Nodup) (b : BackupEntry)
    (hb : b ∈ st.backups) :
    (b ∈ (cleanupOldBackups st fs pid n).1.backups ↔
      (b.projectId ≠ pid ∨
        b ∉ (sortByNewest (backupsForPath st.backups pid b.originalPath)).drop n)) := by
  unfold cleanupOldBackups
  rw [show (staleBackups st.backups pid n).foldl
      (fun acc b => deleteBackup acc.1 acc.2 b.backupId) (st, fs) =
      (staleBackups st.backups pid n).foldl
      (fun acc b => deleteBackup acc.1 acc.2 b.backupId) (st, fs) from rfl]
  constructor
  · intro hmem
    rw [cleanup_fold_backups] at hmem
    have hkeep := (List.mem_filter.mp hmem).2
    by_cases hproj : b.projectId = pid
    · refine Or.inr ?_
      intro hdrop
      have := (staleBackups_id_iff hids hb hproj).mpr hdrop
      rw [this] at hkeep
      cases hkeep
    · exact Or.inl hproj
  · intro hcond
    rw [cleanup_fold_backups]
    apply List.mem_filter.mpr
    refine ⟨hb, ?_⟩
    by_cases hproj : b.projectId = pid
    · rcases hcond with hc | hc
      · exact absurd hproj hc
      · have : ¬((staleBackups st.backups pid n).any
            (fun d => d.backupId == b.backupId) = true) := by
          intro ha
          exact hc ((staleBackups_id_iff hids hb hproj).mp ha)
        simp only [Bool.not_eq_true] at this
        rw [this]
        rfl
    · have : ¬((staleBackups st.backups pid n).any
          (fun d => d.backupId == b.backupId) = true) := by
        intro ha
        obtain ⟨d, hd, hdb⟩ := List.any_eq_true.mp ha
        have hdbs := mem_of_mem_staleBackups hd
        have hdid : d.backupId = b.backupId := by simpa using hdb
        have : d = b := List.inj_on_of_nodup_map hids hdbs.1 hb hdid
        exact hproj (this ▸ hdbs.2)
      simp only [Bool.not_eq_true] at this
      rw [this]
      rfl

/-- Cleanup only removes records; survivors were present before. -/
theorem cleanupOldBackups_sub (st : StoreData) (fs : Fs) (pid : String) (n : Nat)
    (b : BackupEntry) (hb : b ∈ (cleanupOldBackups st fs pid n).1.backups) :
    b ∈ st.backups := by
  unfold cleanupOldBackups at hb
  rw [cleanup_fold_backups] at hb
  exact (List.mem_filter.mp hb).1

/-! ## C5: retention cleanup -/

theorem mem_take_iff_not_mem_drop {l : List BackupEntry} (hnd : l.Nodup) (n : Nat)
    {x : BackupEntry} (hx : x ∈ l) : x ∈ l.take n ↔ x ∉ l.drop n := by
  have hsplit := List.take_append_drop n l
  have hnd2 : (l.take n ++ l.drop n).Nodup := by
    rw [hsplit]
    exact hnd
  have hdisj := (List.nodup_append.mp hnd2).2.2
  constructor
  · intro ht hd
    exact hdisj ht hd
  · intro hd
    have hx2 : x ∈ l.take n ++ l.drop n := by
      rw [hsplit]
      exact hx
    rcases List.mem_append.mp hx2 with hm | hm
    · exact hm
    · exact absurd hm hd

theorem backupsForPath_filter (bs : List BackupEntry) (k : BackupEntry → Bool)
    (pid p : String) :
    backupsForPath (bs.filter k) pid p = (backupsForPath bs pid p).filter k := by
  unfold backupsForPath
  rw [List.filter_filter, List.filter_filter]
  apply List.filter_congr
  intro x _
  exact Bool.and_comm _ _

theorem mem_backupsForPath {bs : List BackupEntry} {pid p : String} {b : BackupEntry} :
    b ∈ backupsForPath bs pid p ↔ (b ∈ bs ∧ b.projectId = pid ∧ b.originalPath = p) := by
  unfold backupsForPath
  rw [List.mem_filter]
  simp

/-- C5 (amended): with retention `n`, after cleanup exactly `n` backups of
the path remain and they are the `n` newest by creation time; cleanup never
touches other projects; and within the project a backup survives exactly
when it is among the newest `n` for its *own* original path — so backups of
other paths are pruned to their own retention window as well. -/
theorem cleanupOldBackups_retention_c5 (st : StoreData) (fs : Fs) (pid p : String)
    (n k : Nat)
    (hids : (st.backups.map (fun x => x.backupId)).Nodup)
    (hlen : (backupsForPath st.backups pid p).length = n + k)
    (htimes : ((backupsForPath st.backups pid p).map (fun x => x.createdAt)).Nodup) :
    ((backupsForPath (cleanupOldBackups st fs pid n).1.backups pid p).length = n ∧
      (∀ b ∈ backupsForPath (cleanupOldBackups st fs pid n).1.backups pid p,
        ∀ d ∈ backupsForPath st.backups pid p,
          d ∉ backupsForPath (cleanupOldBackups st fs pid n).1.backups pid p →
          d.createdAt < b.createdAt) ∧
      (∀ b ∈ st.backups, b.projectId ≠ pid →
        b ∈ (cleanupOldBackups st fs pid n).1.backups) ∧
      (∀ b ∈ st.backups, b.projectId = pid →
        (b ∈ (cleanupOldBackups st fs pid n).1.backups ↔
          b ∈ (sortByNewest (backupsForPath st.backups pid b.originalPath)).take n))) := by
  have hvals : st.backups.Nodup := List.Nodup.of_map _ hids
  have hGnd : (backupsForPath st.backups pid p).Nodup := List.Nodup.filter _ hvals
  have hSnd : (sortByNewest (backupsForPath st.backups pid p)).Nodup :=
    (List.perm_insertionSort newerEq _).nodup_iff.mpr hGnd
  have hotherpath : ∀ b ∈ st.backups, b.projectId = pid →
      (b ∈ (cleanupOldBackups st fs pid n).1.backups ↔
        b ∈ (sortByNewest (backupsForPath st.backups pid b.originalPath)).take n) := by
    intro b hb hproj
    have hGnd2 : (backupsForPath st.backups pid b.originalPath).Nodup :=
      List.Nodup.filter _ hvals
    have hSnd2 : (sortByNewest (backupsForPath st.backups pid b.originalPath)).Nodup :=
      (List.perm_insertionSort newerEq _).nodup_iff.mpr hGnd2
    have hbS : b ∈ sortByNewest (backupsForPath st.backups pid b.originalPath) :=
      mem_sortByNewest.mpr (mem_backupsForPath.mpr ⟨hb, hproj, rfl⟩)
    rw [cleanupOldBackups_mem st fs pid n hids b hb]
    constructor
    · intro hc
      rcases hc with hc | hc
      · exact absurd hproj hc
      · exact (mem_take_iff_not_mem_drop hSnd2 n hbS).mpr hc
    · intro htake
      exact Or.inr ((mem_take_iff_not_mem_drop hSnd2 n hbS).mp htake)
  have hmemkeep : ∀ b,
      (b ∈ backupsForPath (cleanupOldBackups st fs pid n).1.backups pid p ↔
        (b ∈ backupsForPath st.backups pid p ∧
          b ∈ (sortByNewest (backupsForPath st.backups pid p)).take n)) := by
    intro b
    constructor
    · intro hbk
      obtain ⟨hbst1, hproj, hpath⟩ := mem_backupsForPath.mp hbk
      have hbst : b ∈ st.backups := cleanupOldBackups_sub st fs pid n b hbst1
      have hbG : b ∈ backupsForPath st.backups pid p :=
        mem_backupsForPath.mpr ⟨hbst, hproj, hpath⟩
      have := (hotherpath b hbst hproj).mp hbst1
      rw [hpath] at this
      exact ⟨hbG, this⟩
    · rintro ⟨hbG, hbtake⟩
      obtain ⟨hbst, hproj, hpath⟩ := mem_backupsForPath.mp hbG
      have : b ∈ (cleanupOldBackups st fs pid n).1.backups := by
        rw [hotherpath b hbst hproj, hpath]
        exact hbtake
      exact mem_backupsForPath.mpr ⟨this, hproj, hpath⟩
  refine ⟨?_, ?_, ?_, hotherpath⟩
  · have hst1nd : (cleanupOldBackups st fs pid n).1.backups.Nodup := by
      unfold cleanupOldBackups
      rw [cleanup_fold_backups]
      exact List.Nodup.filter _ hvals
    have hKnd : (backupsForPath (cleanupOldBackups st fs pid n).1.backups pid p).Nodup :=
      List.Nodup.filter _ hst1nd
    have hTnd : ((sortByNewest (backupsForPath st.backups pid p)).take n).Nodup :=
      List.Nodup.sublist (List.take_sublist _ _) hSnd
    have hmemT : ∀ x, x ∈ backupsForPath (cleanupOldBackups st fs pid n).1.backups pid p ↔
        x ∈ (sortByNewest (backupsForPath st.backups pid p)).take n := by
      intro x
      rw [hmemkeep x]
      constructor
      · intro hx
        exact hx.2
      · intro hx
        exact ⟨mem_sortByNewest.mp (List.mem_of_mem_take hx), hx⟩
    have hfin : (backupsForPath (cleanupOldBackups st fs pid n).1.backups pid p).toFinset =
        ((sortByNewest (backupsForPath st.backups pid p)).take n).toFinset := by
      apply Finset.ext
      intro x
      rw [List.mem_toFinset, List.mem_toFinset]
      exact hmemT x
    have hlen1 := List.toFinset_card_of_nodup hKnd
    have hlen2 := List.toFinset_card_of_nodup hTnd
    rw [hfin] at hlen1
    rw [hlen2] at hlen1
    rw [← hlen1, List.length_take]
    have hSlen : (sortByNewest (backupsForPath st.backups pid p)).length =
        (backupsForPath st.backups pid p).length :=
      (List.perm_insertionSort newerEq _).length_eq
    rw [hSlen, hlen]
    exact Nat.min_eq_left (Nat.le_add_right n k)
  · intro b hbK d hdG hdK
    have hbT := (hmemkeep b).mp hbK
    have hdS : d ∈ sortByNewest (backupsForPath st.backups pid p) :=
      mem_sortByNewest.mpr hdG
    have hdD : d ∈ (sortByNewest (backupsForPath st.backups pid p)).drop n := by
      by_contra hdd
      have hdT := (mem_take_iff_not_mem_drop hSnd n hdS).mpr hdd
      exact hdK ((hmemkeep d).mpr ⟨hdG, hdT⟩)
    have hpair : List.Pairwise newerEq
        ((sortByNewest (backupsForPath st.backups pid p)).take n ++
          (sortByNewest (backupsForPath st.backups pid p)).drop n) := by
      rw [List.take_append_drop]
      exact sorted_sortByNewest _
    have hle : d.createdAt ≤ b.createdAt :=
      (List.pairwise_append.mp hpair).2.2 b hbT.2 d hdD
    have hbG := hbT.1
    have hne : d ≠ b := fun hdb => hdK (hdb ▸ hbK)
    have hct : d.createdAt ≠ b.createdAt := fun hc =>
      hne (List.inj_on_of_nodup_map htimes hdG hbG hc)
    exact Nat.lt_of_le_of_ne hle hct
  · intro b hb hproj
    exact (cleanupOldBackups_mem st fs pid n hids b hb).mpr (Or.inl hproj)

/-- C5 counterexample: the cleanup run for the N+k backups of path "a"
(retention 1) also removes a backup of the *other* path "b" (which exceeds
its own retention), contradicting "cleanup never removes backups of other
paths". -/
theorem cleanupOldBackups_c5_counterexample :
    (c5OtherB1 ∈ c5Store.backups ∧ c5OtherB1.originalPath = "b" ∧
      (backupsForPath c5Store.backups "P" "a").length = 1 + 1 ∧
      c5OtherB1 ∉ (cleanupOldBackups c5Store ⟨[]⟩ "P" 1).1.backups) := by
  decide

/-- Witness for C5 (amended) at a concrete input: three backups of path "a"
with retention 2 leave exactly the two newest. -/
theorem cleanupOldBackups_retention_c5_witness :
    (((c5wStore.backups.map (fun x => x.backupId)).Nodup ∧
      (backupsForPath c5wStore.backups "P" "a").length = 2 + 1 ∧
      ((backupsForPath c5wStore.backups "P" "a").map (fun x => x.createdAt)).Nodup) ∧
      (backupsForPath (cleanupOldBackups c5wStore ⟨[]⟩ "P" 2).1.backups "P" "a").length
        = 2) := by
  refine ⟨⟨by decide, by decide, by decide⟩, ?_⟩
  exact (cleanupOldBackups_retention_c5 c5wStore ⟨[]⟩ "P" "a" 2 1 (by decide)
    (by decide) (by decide)).1

/-! ## C3: createBackup integrity -/

theorem setBackup_eq_append {bs : List BackupEntry} {e : BackupEntry}
    (hfresh : ∀ x ∈ bs, x.backupId ≠ e.backupId) : setBackup bs e = bs ++ [e] := by
  induction bs with
  | nil => rfl
  | cons x xs ih =>
    have hx : (x.backupId == e.backupId) = false := by
      simp [hfresh x (List.mem_cons_self x xs)]
    unfold setBackup
    rw [hx]
    simp only [Bool.false_eq_true, if_false, List.cons_append]
    rw [ih (fun y hy => hfresh y (List.mem_cons_of_mem x hy))]

/-- A strictly-newest entry appended to the store is never beyond the newest
`n ≥ 1` of its group. -/
theorem fresh_not_in_drop {bs : List BackupEntry} {e : BackupEntry} {pid q : String}
    {n : Nat} (hn : 1 ≤ n)
    (htimes : ∀ b ∈ bs, b.createdAt < e.createdAt)
    (he : e ∈ backupsForPath (bs ++ [e]) pid q) :
    e ∉ (sortByNewest (backupsForPath (bs ++ [e]) pid q)).drop n := by
  have hGsplit : backupsForPath (bs ++ [e]) pid q =
      backupsForPath bs pid q ++ backupsForPath [e] pid q := by
    unfold backupsForPath
    exact List.filter_append _ _
  have heGb : e ∉ backupsForPath bs pid q := by
    intro hc
    have := htimes e (mem_backupsForPath.mp hc).1
    exact Nat.lt_irrefl _ this
  have heSingle : e ∈ backupsForPath [e] pid q := by
    rcases List.mem_append.mp (hGsplit ▸ he) with hc | hc
    · exact absurd hc heGb
    · exact hc
  have hSingle : backupsForPath [e] pid q = [e] := by
    cases hs : backupsForPath [e] pid q with
    | nil =>
      rw [hs] at heSingle
      exact absurd heSingle (List.not_mem_nil e)
    | cons y ys =>
      have hsub : ∀ z ∈ backupsForPath [e] pid q, z = e := by
        intro z hz
        have := (mem_backupsForPath.mp hz).1
        simpa using this
      have hy : y = e := hsub y (hs ▸ List.mem_cons_self y ys)
      have hys : ys = [] := by
        cases hys : ys with
        | nil => rfl
        | cons z zs =>
          have hzmem : z ∈ backupsForPath [e] pid q := by
            rw [hs, hys]
            exact List.mem_cons_of_mem y (List.mem_cons_self z zs)
          have hze : z = e := hsub z hzmem
          have hnd : (backupsForPath [e] pid q).Nodup :=
            List.Nodup.filter _ (by simp)
          rw [hs, hys, hy, hze] at hnd
          simp at hnd
      rw [hy, hys]
  have hmax : ∀ b ∈ backupsForPath (bs ++ [e]) pid q, b ≠ e →
      b.createdAt < e.createdAt := by
    intro b hb hbe
    rcases List.mem_append.mp (hGsplit ▸ hb) with hc | hc
    · exact htimes b (mem_backupsForPath.mp hc).1
    · rw [hSingle] at hc
      exact absurd (List.mem_singleton.mp hc) hbe
  obtain ⟨rest, hs⟩ := sortByNewest_head_of_strict_max he hmax
  have hcount : (backupsForPath (bs ++ [e]) pid q).count e = 1 := by
    rw [hGsplit, List.count_append, hSingle]
    have h0 : (backupsForPath bs pid q).count e = 0 :=
      List.count_eq_zero.mpr heGb
    rw [h0]
    simp
  have hcount2 : (sortByNewest (backupsForPath (bs ++ [e]) pid q)).count e = 1 := by
    unfold sortByNewest
    rw [(List.perm_insertionSort newerEq _).count_eq]
    exact hcount
  rw [hs] at hcount2
  rw [List.count_cons_self] at hcount2
  have hrest : e ∉ rest := List.count_eq_zero.mp (by omega)
  rw [hs]
  obtain ⟨m, hm⟩ := Nat.exists_eq_add_of_le hn
  rw [hm]
  intro hc
  rw [Nat.add_comm 1 m, List.drop_succ_cons] at hc
  exact hrest (List.mem_of_mem_drop hc)

/-- C3: with backups enabled, a successful `createBackup` leaves a backup
file whose re-hash equals the `fileHash` recorded in the persisted
BackupEntry; and when the post-copy hash differs from the source hash, the
copy is deleted, the call fails, and no entry is persisted. -/
theorem createBackup_integrity_c3 (h : Nat → Nat) (opts : BackupOptions)
    (pid : String) (cwdRel : String → String) (st : StoreData) (fs : Fs)
    (originalPath reason bid bpath : String) (now : Nat) (written : Nat → Nat)
    (src : Nat)
    (henabled : opts.enabled = true)
    (hsrc : fs.read originalPath = Option.some src)
    (hret : 1 ≤ opts.retentionCount)
    (hids : (st.backups.map (fun x => x.backupId)).Nodup)
    (hfreshId : ∀ b ∈ st.backups, b.backupId ≠ bid)
    (hfreshPath : ∀ b ∈ st.backups, b.backupPath ≠ bpath)
    (hfreshTime : ∀ b ∈ st.backups, b.createdAt < now) :
    ((h (written src) = h src →
      (createBackup h opts pid cwdRel st fs originalPath reason bid bpath now
        written).1.success = true ∧
      (createBackup h opts pid cwdRel st fs originalPath reason bid bpath now
        written).2.2.read bpath = Option.some (written src) ∧
      (∃ e ∈ (createBackup h opts pid cwdRel st fs originalPath reason bid bpath now
          written).2.1.backups,
        e.backupId = bid ∧ e.fileHash = h src ∧ h (written src) = e.fileHash)) ∧
    (h (written src) ≠ h src →
      (createBackup h opts pid cwdRel st fs originalPath reason bid bpath now
        written).1.success = false ∧
      (createBackup h opts pid cwdRel st fs originalPath reason bid bpath now
        written).2.1 = st ∧
      (createBackup h opts pid cwdRel st fs originalPath reason bid bpath now
        written).2.2.read bpath = Option.none)) := by
  have hnotdis : (!opts.enabled) = false := by
    rw [henabled]
    rfl
  constructor
  · intro heq
    unfold createBackup
    rw [hnotdis]
    simp only [Bool.false_eq_true, if_false, hsrc]
    rw [if_neg (fun hc => hc heq)]
    set e : BackupEntry :=
      { backupId := bid, originalPath := cwdRel originalPath, backupPath := bpath,
        createdAt := now, fileHash := h src, projectId := pid,
        reason := reason } with hedef
    have hset : setBackup st.backups e = st.backups ++ [e] :=
      setBackup_eq_append (fun x hx => hfreshId x hx)
    have hids1 : ((st.backups ++ [e]).map (fun x => x.backupId)).Nodup := by
      rw [List.map_append]
      rw [List.nodup_append]
      refine ⟨hids, by simp, ?_⟩
      intro a ha
      simp only [List.map_cons, List.map_nil, List.mem_singleton]
      obtain ⟨x, hxmem, hxid⟩ := List.mem_map.mp ha
      intro hc
      exact hfreshId x hxmem (hxid.trans hc)
    have hemem : e ∈ st.backups ++ [e] := List.mem_append_right _ (by simp)
    have heG : e ∈ backupsForPath (st.backups ++ [e]) pid e.originalPath :=
      mem_backupsForPath.mpr ⟨hemem, rfl, rfl⟩
    have hnodrop : e ∉ (sortByNewest
        (backupsForPath (st.backups ++ [e]) pid e.originalPath)).drop
          opts.retentionCount :=
      fresh_not_in_drop hret (fun b hb => hfreshTime b hb) heG
    have hestale : e ∉ staleBackups (st.backups ++ [e]) pid opts.retentionCount := by
      intro hc
      have hany : (staleBackups (st.backups ++ [e]) pid
          opts.retentionCount).any (fun d => d.backupId == e.backupId) = true :=
        List.any_eq_true.mpr ⟨e, hc, by simp⟩
      exact hnodrop ((staleBackups_id_iff hids1 hemem rfl).mp hany)
    by_cases hauto : opts.autoCleanup = true
    · rw [if_pos hauto, hset]
      refine ⟨rfl, ?_, ?_⟩
      · show (cleanupOldBackups { st with backups := st.backups ++ [e] }
            (fs.write bpath (written src)) pid opts.retentionCount).2.read bpath =
          Option.some (written src)
        unfold cleanupOldBackups
        rw [cleanup_fold_fs_read]
        · exact Fs.read_write_self fs bpath (written src)
        · intro d hd x hx hid
          have hxa : x ∈ st.backups ++ [e] := hx
          rcases List.mem_append.mp hxa with hxold | hxe
          · exact hfreshPath x hxold
          · exfalso
            have hxe2 : x = e := List.mem_singleton.mp hxe
            subst hxe2
            have hda : d ∈ st.backups ++ [e] := (mem_of_mem_staleBackups hd).1
            rcases List.mem_append.mp hda with hdold | hde
            · exact hfreshId d hdold hid.symm
            · have hde2 : d = e := List.mem_singleton.mp hde
              subst hde2
              exact hestale hd
      · show ∃ x ∈ (cleanupOldBackups { st with backups := st.backups ++ [e] }
            (fs.write bpath (written src)) pid opts.retentionCount).1.backups,
          x.backupId = bid ∧ x.fileHash = h src ∧ h (written src) = x.fileHash
        refine ⟨e, ?_, rfl, rfl, heq⟩
        exact (cleanupOldBackups_mem _ _ pid opts.retentionCount hids1 e
          hemem).mpr (Or.inr hnodrop)
    · rw [if_neg hauto, hset]
      refine ⟨rfl, ?_, ?_⟩
      · exact Fs.read_write_self fs bpath (written src)
      · exact ⟨e, hemem, rfl, rfl, heq⟩
  · intro hne
    unfold createBackup
    rw [hnotdis]
    simp only [Bool.false_eq_true, if_false, hsrc]
    rw [if_pos hne]
    refine ⟨rfl, rfl, ?_⟩
    exact Fs.read_remove_self _ bpath

/-- Witness for C3 at a concrete input: source file "f" with content 9,
faithful copy, retention 5 — the backup succeeds, the copy re-hashes to the
recorded fileHash. -/
theorem createBackup_integrity_c3_witness :
    ((Fs.read ⟨[("f", 9)]⟩ "f" = Option.some 9 ∧ (1 : Nat) ≤ 5 ∧
      (fun n : Nat => n) ((fun n : Nat => n) 9) = (fun n : Nat => n) 9) ∧
      ((createBackup (fun n => n)
          { enabled := true, retentionCount := 5, autoCleanup := true } "P"
          (fun p => p) { syncStates := [], backups := [] } ⟨[("f", 9)]⟩
          "f" "sync" "b" "bak" 1 (fun n => n)).1.success = true ∧
        (createBackup (fun n => n)
          { enabled := true, retentionCount := 5, autoCleanup := true } "P"
          (fun p => p) { syncStates := [], backups := [] } ⟨[("f", 9)]⟩
          "f" "sync" "b" "bak" 1 (fun n => n)).2.2.read "bak" =
            Option.some ((fun n : Nat => n) 9) ∧
        (∃ e ∈ (createBackup (fun n => n)
            { enabled := true, retentionCount := 5, autoCleanup := true } "P"
            (fun p => p) { syncStates := [], backups := [] } ⟨[("f", 9)]⟩
            "f" "sync" "b" "bak" 1 (fun n => n)).2.1.backups,
          e.backupId = "b" ∧ e.fileHash = (fun n : Nat => n) 9 ∧
            (fun n : Nat => n) ((fun n : Nat => n) 9) = e.fileHash))) := by
  refine ⟨⟨by decide, by decide, rfl⟩, ?_⟩
  exact (createBackup_integrity_c3 (fun n => n)
    { enabled := true, retentionCount := 5, autoCleanup := true } "P"
    (fun p => p) { syncStates := [], backups := [] } ⟨[("f", 9)]⟩
    "f" "sync" "b" "bak" 1 (fun n => n) 9 rfl (by decide) (by decide) (by decide)
    (by intro b hb; cases hb) (by intro b hb; cases hb) (by intro b hb; cases hb)).1
    rfl

/-! ## C1: backup failure during execution -/

/-- C1 (amended): in the execute loop, when an operation requires a backup,
`createBackup` is attempted first; if it reports failure, a warning is
recorded but the operation is *not* aborted — it still executes, is appended
to `executedOperations`, and the backup counter is untouched.  Only a thrown
execution error moves an operation to the skipped list. -/
theorem executeOperations_backup_failure_c1 (h : Nat → Nat) (pid : String)
    (backupOk : String → Bool) (execOk : SyncOperation → Bool)
    (freshId : String → String) (now : Nat) (acc : RunAcc) (op : SyncOperation)
    (w1 : World)
    (hreq : op.backupRequired = true)
    (hbk : backupOk op.filePath = false)
    (hex : execOk op = true)
    (hw : executeOperation h pid freshId now acc.world op = Option.some w1) :
    execStep h pid backupOk execOk freshId now acc op =
      { acc with
        world := w1,
        warnings := acc.warnings ++ [backupFailWarning op.filePath],
        executed := acc.executed ++ [op] } := by
  unfold execStep
  rw [if_pos hreq]
  rw [hbk]
  simp only [Bool.false_eq_true, if_false, hex, if_true]
  rw [hw]

/-- C1 counterexample: with `createBackup` always failing, a non-dry-run sync
still executes the backup-requiring upload and lists it in
`executedOperations`, recording only a warning — the operation is not
aborted. -/
theorem executeOperations_c1_counterexample :
    ((syncRun (fun n => n) c1Opts "P" [] (fun _ => false) (fun _ => true)
        (fun p => p) 10 c1World).result.executed = [c1Op] ∧
      (syncRun (fun n => n) c1Opts "P" [] (fun _ => false) (fun _ => true)
        (fun p => p) 10 c1World).result.warnings = [backupFailWarning "a"] ∧
      (syncRun (fun n => n) c1Opts "P" [] (fun _ => false) (fun _ => true)
        (fun p => p) 10 c1World).result.skipped = [] ∧
      c1Op.backupRequired = true) := by
  decide

/-- Witness for C1 (amended) at a concrete input. -/
theorem executeOperations_backup_failure_c1_witness :
    ((c1Op.backupRequired = true ∧
      executeOperation (fun n => n) "P" (fun p => p) 10 c1Acc.world c1Op =
        Option.some c1ExecWorld) ∧
      execStep (fun n => n) "P" (fun _ => false) (fun _ => true) (fun p => p) 10
        c1Acc c1Op =
      { c1Acc with
        world := c1ExecWorld,
        warnings := c1Acc.warnings ++ [backupFailWarning c1Op.filePath],
        executed := c1Acc.executed ++ [c1Op] }) := by
  refine ⟨⟨by decide, by decide⟩, ?_⟩
  exact executeOperations_backup_failure_c1 (fun n => n) "P" (fun _ => false)
    (fun _ => true) (fun p => p) 10 c1Acc c1Op c1ExecWorld (by decide) rfl rfl
    (by decide)

/-! ## C2: dry-run purity -/

/-- In a dry run the world is returned untouched and nothing is executed. -/
theorem syncRun_dryRun_world (h : Nat → Nat) (opts : SafeSyncOptions) (pid : String)
    (envIssues : List ValidationIssue) (backupOk : String → Bool)
    (execOk : SyncOperation → Bool) (freshId : String → String) (now : Nat)
    (w : World) (hdry : opts.dryRun = true) :
    ((syncRun h opts pid envIssues backupOk execOk freshId now w).world = w ∧
      (syncRun h opts pid envIssues backupOk execOk freshId now w).result.executed
        = [] ∧
      (syncRun h opts pid envIssues backupOk execOk freshId now w).result.skipped
        = []) := by
  refine ⟨?_, ?_, ?_⟩ <;>
    (simp only [syncRun]
     by_cases hg : (opts.validationEnabled &&
        !(validate h envIssues
          { maxConflictCount := opts.maxConflictCount, allowForce := opts.force }
          w.syncStates pid w.locals w.remotes opts.direction).canProceed &&
        !opts.force) = true
     · rw [if_pos hg]
     · rw [if_neg hg, if_pos hdry])

/-- C2 (amended): a dry-run executes nothing and leaves the local tree and
the remote store untouched, and it still returns the planned (post-conflict-
resolution) operation list — non-empty when, e.g., a new local file exists;
but `close()` rewrites the State Store file unconditionally: its content is
the just-loaded state (so unchanged in content when a store file existed),
and a dry-run against a project with *no* prior store file creates one
holding the empty state. -/
theorem dryRun_purity_c2 (h : Nat → Nat) (opts : SafeSyncOptions) (pid : String)
    (envIssues : List ValidationIssue) (backupOk : String → Bool)
    (execOk : SyncOperation → Bool) (freshId : String → String) (now : Nat)
    (store : Option StoreData) (locals : List LocalFile)
    (remotes : List RemoteFile) (hdry : opts.dryRun = true) :
    (((syncWithStore h opts pid envIssues backupOk execOk freshId now store locals
        remotes).1.world.locals = locals ∧
      (syncWithStore h opts pid envIssues backupOk execOk freshId now store locals
        remotes).1.world.remotes = remotes ∧
      (syncWithStore h opts pid envIssues backupOk execOk freshId now store locals
        remotes).2 = Option.some (loadStore store) ∧
      (syncWithStore h opts pid envIssues backupOk execOk freshId now store locals
        remotes).1.result.executed = []) ∧
    (opts.validationEnabled = false →
      (opts.direction = SyncDirection.upload ∨ opts.direction = SyncDirection.both) →
      (∃ f ∈ locals, getFileState (loadStore store).syncStates pid f.path =
        Option.none) →
      (syncWithStore h opts pid envIssues backupOk execOk freshId now store locals
        remotes).1.result.operations ≠ [])) := by
  have hw := syncRun_dryRun_world h opts pid envIssues backupOk execOk freshId now
    { locals := locals, remotes := remotes, syncStates := (loadStore store).syncStates }
    hdry
  constructor
  · refine ⟨?_, ?_, ?_, ?_⟩
    · show (syncRun h opts pid envIssues backupOk execOk freshId now
        { locals := locals, remotes := remotes,
          syncStates := (loadStore store).syncStates }).world.locals = locals
      rw [hw.1]
    · show (syncRun h opts pid envIssues backupOk execOk freshId now
        { locals := locals, remotes := remotes,
          syncStates := (loadStore store).syncStates }).world.remotes = remotes
      rw [hw.1]
    · show Option.some
        { syncStates := (syncRun h opts pid envIssues backupOk execOk freshId now
            { locals := locals, remotes := remotes,
              syncStates := (loadStore store).syncStates }).world.syncStates,
          backups := (loadStore store).backups } = Option.some (loadStore store)
      rw [hw.1]
    · exact hw.2.1
  · intro hva hdir ⟨f, hf, hfs⟩
    show (syncRun h opts pid envIssues backupOk execOk freshId now
      { locals := locals, remotes := remotes,
        syncStates := (loadStore store).syncStates }).result.operations ≠ []
    have hguard : (opts.validationEnabled &&
        !(validate h envIssues
          { maxConflictCount := opts.maxConflictCount, allowForce := opts.force }
          (loadStore store).syncStates pid locals remotes opts.direction).canProceed &&
        !opts.force) = false := by
      rw [hva]
      rfl
    simp only [syncRun]
    rw [hguard]
    simp only [Bool.false_eq_true, if_false, hva, hdry, if_true]
    have hplanup : planUploadOperations h (loadStore store).syncStates pid locals ≠ [] := by
      intro hc
      have hmem : ({ type := OpType.upload, filePath := f.path,
                     reason := "New local file", backupRequired := false } :
          SyncOperation) ∈
          planUploadOperations h (loadStore store).syncStates pid locals := by
        apply List.mem_filterMap.mpr
        refine ⟨f, hf, ?_⟩
        unfold uploadOpFor
        simp only [hfs]
      rw [hc] at hmem
      exact List.not_mem_nil _ hmem
    intro hc
    apply hplanup
    have hops0 : planOperations h opts.direction (loadStore store).syncStates pid
        locals remotes ≠ [] := by
      unfold planOperations
      rw [if_pos hdir]
      intro hac
      exact hplanup (List.append_eq_nil.mp hac).1
    apply absurd hc
    show ¬(handleConflicts opts.strategy [] (planOperations h opts.direction
      (loadStore store).syncStates pid locals remotes) = [])
    unfold handleConflicts
    rw [List.foldl_nil]
    exact hops0

/-- C2 counterexample: a dry-run on a project with no prior State Store file
creates one (the `close()` in `sync()`'s `finally` always saves), so the
persisted State Store is not byte-for-byte unchanged. -/
theorem dryRun_c2_counterexample :
    ((syncWithStore (fun n => n) c2Opts "P" [] (fun _ => true) (fun _ => true)
        (fun p => p) 10 Option.none [c2File] []).2 =
      Option.some { syncStates := [], backups := [] } ∧
      (syncWithStore (fun n => n) c2Opts "P" [] (fun _ => true) (fun _ => true)
        (fun p => p) 10 Option.none [c2File] []).2 ≠ Option.none ∧
      c2Opts.dryRun = true ∧
      (syncWithStore (fun n => n) c2Opts "P" [] (fun _ => true) (fun _ => true)
        (fun p => p) 10 Option.none [c2File] []).1.result.operations ≠ []) := by
  decide

/-- Witness for C2 (amended) at a concrete input: dry-run with one new local
file — world untouched, store rewritten as loaded, and a non-empty plan. -/
theorem dryRun_purity_c2_witness :
    ((c2Opts.dryRun = true ∧ c2Opts.validationEnabled = false ∧
      (c2Opts.direction = SyncDirection.upload ∨
        c2Opts.direction = SyncDirection.both) ∧
      (∃ f ∈ [c2File], getFileState (loadStore (Option.some
        { syncStates := [], backups := [] })).syncStates "P" f.path =
        Option.none)) ∧
      ((syncWithStore (fun n => n) c2Opts "P" [] (fun _ => true) (fun _ => true)
          (fun p => p) 10 (Option.some { syncStates := [], backups := [] })
          [c2File] []).2 =
        Option.some (loadStore (Option.some { syncStates := [], backups := [] })) ∧
        (syncWithStore (fun n => n) c2Opts "P" [] (fun _ => true) (fun _ => true)
          (fun p => p) 10 (Option.some { syncStates := [], backups := [] })
          [c2File] []).1.result.operations ≠ [])) := by
  refine ⟨⟨rfl, rfl, Or.inl rfl, ⟨c2File, by decide, by decide⟩⟩, ?_, ?_⟩
  · exact ((dryRun_purity_c2 (fun n => n) c2Opts "P" [] (fun _ => true)
      (fun _ => true) (fun p => p) 10
      (Option.some { syncStates := [], backups := [] }) [c2File] [] rfl).1).2.2.1
  · exact ((dryRun_purity_c2 (fun n => n) c2Opts "P" [] (fun _ => true)
      (fun _ => true) (fun p => p) 10
      (Option.some { syncStates := [], backups := [] }) [c2File] [] rfl).2) rfl
      (Or.inl rfl) ⟨c2File, by decide, by decide⟩

/-! ## C6: lemmas about local files and upserts -/

theorem findLocal_some {locals : List LocalFile} {p : String} {f : LocalFile}
    (hf : findLocal locals p = Option.some f) : f ∈ locals ∧ f.path = p := by
  refine ⟨List.mem_of_find?_eq_some hf, ?_⟩
  have := List.find?_some hf
  simpa using this

theorem findLocal_of_mem {locals : List LocalFile} {f : LocalFile}
    (hnd : (locals.map (fun g => g.path)).Nodup) (hf : f ∈ locals) :
    findLocal locals f.path = Option.some f := by
  cases hfind : findLocal locals f.path with
  | none =>
    unfold findLocal at hfind
    have := List.find?_eq_none.mp hfind f hf
    simp at this
  | some g =>
    obtain ⟨hgmem, hgp⟩ := findLocal_some hfind
    have : g = f := List.inj_on_of_nodup_map hnd hgmem hf hgp
    rw [this]

theorem findLocal_upsertLocal (locals : List LocalFile) (f : LocalFile) (p : String) :
    findLocal (upsertLocal locals f) p =
      if p = f.path then Option.some f else findLocal locals p := by
  induction locals with
  | nil =>
    by_cases hp : p = f.path
    · simp [upsertLocal, findLocal, List.find?, hp]
    · simp only [upsertLocal, findLocal, List.find?, if_neg hp]
      have : (f.path == p) = false := by simp [Ne.symm hp]
      simp [this]
  | cons g gs ih =>
    show findLocal (if g.path == f.path then f :: gs else g :: upsertLocal gs f) p = _
    by_cases hg : (g.path == f.path) = true
    · rw [if_pos hg]
      have hgf : g.path = f.path := by simpa using hg
      by_cases hp : p = f.path
      · simp [findLocal, List.find?, hp]
      · have h1 : (f.path == p) = false := by simp [Ne.symm hp]
        have h2 : (g.path == p) = false := by
          rw [hgf]
          exact h1
        simp [findLocal, List.find?, h1, h2, if_neg hp]
    · rw [if_neg hg]
      by_cases hq : (g.path == p) = true
      · have hgp : g.path = p := by simpa using hq
        by_cases hp : p = f.path
        · exfalso
          apply hg
          rw [hgp, hp]
          simp
        · rw [if_neg hp]
          simp [findLocal, List.find?, hq]
      · have hqf : (g.path == p) = false := Bool.eq_false_iff.mpr hq
        calc findLocal (g :: upsertLocal gs f) p
            = findLocal (upsertLocal gs f) p := by
              simp [findLocal, List.find?, hqf]
          _ = if p = f.path then Option.some f else findLocal gs p := ih
          _ = if p = f.path then Option.some f else findLocal (g :: gs) p := by
              by_cases hp : p = f.path
              · rw [if_pos hp, if_pos hp]
              · rw [if_neg hp, if_neg hp]
                simp [findLocal, List.find?, hqf]

theorem mem_paths_upsertLocal {locals : List LocalFile} {f : LocalFile} {q : String} :
    q ∈ (upsertLocal locals f).map (fun g => g.path) ↔
      (q ∈ locals.map (fun g => g.path) ∨ q = f.path) := by
  induction locals with
  | nil => simp [upsertLocal]
  | cons g gs ih =>
    show q ∈ (if g.path == f.path then f :: gs else g :: upsertLocal gs f).map
        (fun x => x.path) ↔ _
    by_cases hg : (g.path == f.path) = true
    · have hgf : g.path = f.path := by simpa using hg
      rw [if_pos hg]
      simp only [List.map_cons, List.mem_cons, hgf]
      constructor
      · rintro (hq | hq)
        · exact Or.inr hq
        · exact Or.inl (Or.inr hq)
      · rintro ((hq | hq) | hq)
        · exact Or.inl hq
        · exact Or.inr hq
        · exact Or.inl hq
    · rw [if_neg hg]
      simp only [List.map_cons, List.mem_cons, ih]
      constructor
      · rintro (hq | hq | hq)
        · exact Or.inl (Or.inl hq)
        · exact Or.inl (Or.inr hq)
        · exact Or.inr hq
      · rintro ((hq | hq) | hq)
        · exact Or.inl hq
        · exact Or.inr (Or.inl hq)
        · exact Or.inr (Or.inr hq)

theorem nodup_upsertLocal {locals : List LocalFile} {f : LocalFile}
    (hnd : (locals.map (fun g => g.path)).Nodup) :
    ((upsertLocal locals f).map (fun g => g.path)).Nodup := by
  induction locals with
  | nil => simp [upsertLocal]
  | cons g gs ih =>
    show ((if g.path == f.path then f :: gs else g :: upsertLocal gs f).map
        (fun x => x.path)).Nodup
    simp only [List.map_cons, List.nodup_cons] at hnd
    by_cases hg : (g.path == f.path) = true
    · have hgf : g.path = f.path := by simpa using hg
      rw [if_pos hg]
      simp only [List.map_cons, List.nodup_cons]
      exact ⟨hgf ▸ hnd.1, hnd.2⟩
    · have hgf : g.path ≠ f.path := by simpa using hg
      rw [if_neg hg]
      simp only [List.map_cons, List.nodup_cons]
      refine ⟨?_, ih hnd.2⟩
      intro hc
      rcases mem_paths_upsertLocal.mp hc with hc | hc
      · exact hnd.1 hc
      · exact hgf hc

/-! ## C6: lemmas about conflict resolution -/

theorem setFirstUploadBackup_origin {p : String} {ops : List SyncOperation}
    {op' : SyncOperation} (hmem : op' ∈ setFirstUploadBackup p ops) :
    ∃ op ∈ ops, op.filePath = op'.filePath ∧ op.type = op'.type := by
  induction ops with
  | nil => cases hmem
  | cons op ops ih =>
    unfold setFirstUploadBackup at hmem
    by_cases hc : (op.type == OpType.upload && op.filePath == p) = true
    · rw [if_pos hc] at hmem
      rcases List.mem_cons.mp hmem with hx | hx
      · exact ⟨op, List.mem_cons_self op ops, by rw [hx], by rw [hx]⟩
      · exact ⟨op', List.mem_cons_of_mem op hx, rfl, rfl⟩
    · rw [if_neg hc] at hmem
      rcases List.mem_cons.mp hmem with hx | hx
      · exact ⟨op, List.mem_cons_self op ops, by rw [hx], by rw [hx]⟩
      · obtain ⟨op0, hop0, he⟩ := ih hx
        exact ⟨op0, List.mem_cons_of_mem op hop0, he⟩

theorem setFirstUploadBackup_preserve {p : String} {ops : List SyncOperation}
    {op : SyncOperation} (hmem : op ∈ ops) :
    ∃ op' ∈ setFirstUploadBackup p ops,
      op'.filePath = op.filePath ∧ op'.type = op.type := by
  induction ops with
  | nil => cases hmem
  | cons op0 ops ih =>
    unfold setFirstUploadBackup
    by_cases hc : (op0.type == OpType.upload && op0.filePath == p) = true
    · rw [if_pos hc]
      rcases List.mem_cons.mp hmem with hx | hx
      · subst hx
        exact ⟨_, List.mem_cons_self _ _, rfl, rfl⟩
      · exact ⟨op, List.mem_cons_of_mem _ hx, rfl, rfl⟩
    · rw [if_neg hc]
      rcases List.mem_cons.mp hmem with hx | hx
      · subst hx
        exact ⟨op, List.mem_cons_self _ _, rfl, rfl⟩
      · obtain ⟨op', hop', he⟩ := ih hx
        exact ⟨op', List.mem_cons_of_mem _ hop', he⟩

theorem resolveConflict_origin {s : Strategy} {ops : List SyncOperation}
    {c : ConflictInfo} {op' : SyncOperation}
    (hmem : op' ∈ resolveConflict s ops c) :
    ∃ op ∈ ops, op.filePath = op'.filePath ∧ op.type = op'.type := by
  cases s with
  | skip => exact ⟨op', (List.mem_filter.mp hmem).1, rfl, rfl⟩
  | ask => exact ⟨op', (List.mem_filter.mp hmem).1, rfl, rfl⟩
  | local_wins => exact ⟨op', (List.mem_filter.mp hmem).1, rfl, rfl⟩
  | remote_wins => exact ⟨op', (List.mem_filter.mp hmem).1, rfl, rfl⟩
  | backup_and_merge => exact setFirstUploadBackup_origin hmem

theorem resolveConflict_survival {s : Strategy} {ops : List SyncOperation}
    {c : ConflictInfo} {op : SyncOperation} (hmem : op ∈ ops)
    (hkeep : ¬(c.filePath = op.filePath ∧ strategyRemoves s op.type)) :
    ∃ op' ∈ resolveConflict s ops c,
      op'.filePath = op.filePath ∧ op'.type = op.type := by
  cases s with
  | skip =>
    have hne : c.filePath ≠ op.filePath := fun hc => hkeep ⟨hc, trivial⟩
    refine ⟨op, List.mem_filter.mpr ⟨hmem, ?_⟩, rfl, rfl⟩
    simp [bne, Ne.symm hne]
  | ask =>
    have hne : c.filePath ≠ op.filePath := fun hc => hkeep ⟨hc, trivial⟩
    refine ⟨op, List.mem_filter.mpr ⟨hmem, ?_⟩, rfl, rfl⟩
    simp [bne, Ne.symm hne]
  | local_wins =>
    refine ⟨op, List.mem_filter.mpr ⟨hmem, ?_⟩, rfl, rfl⟩
    simp only [Bool.not_eq_true', Bool.and_eq_false_iff]
    by_cases ht : op.type = OpType.download
    · refine Or.inr ?_
      have hne : c.filePath ≠ op.filePath := fun hc => hkeep ⟨hc, ht⟩
      simp [Ne.symm hne]
    · exact Or.inl (by simp [ht])
  | remote_wins =>
    refine ⟨op, List.mem_filter.mpr ⟨hmem, ?_⟩, rfl, rfl⟩
    simp only [Bool.not_eq_true', Bool.and_eq_false_iff]
    by_cases ht : op.type = OpType.upload
    · refine Or.inr ?_
      have hne : c.filePath ≠ op.filePath := fun hc => hkeep ⟨hc, ht⟩
      simp [Ne.symm hne]
    · exact Or.inl (by simp [ht])
  | backup_and_merge => exact setFirstUploadBackup_preserve hmem

theorem resolveConflict_removes {s : Strategy} {ops : List SyncOperation}
    {c : ConflictInfo} {p : String} {t : OpType} (hcp : c.filePath = p)
    (hrem : strategyRemoves s t) :
    ∀ op' ∈ resolveConflict s ops c, ¬(op'.filePath = p ∧ op'.type = t) := by
  intro op' hmem ⟨hp, ht⟩
  cases s with
  | skip =>
    have := (List.mem_filter.mp hmem).2
    simp only [bne_iff_ne, ne_eq] at this
    exact this (hp.trans hcp.symm)
  | ask =>
    have := (List.mem_filter.mp hmem).2
    simp only [bne_iff_ne, ne_eq] at this
    exact this (hp.trans hcp.symm)
  | local_wins =>
    have := (List.mem_filter.mp hmem).2
    simp only [Bool.not_eq_true', Bool.and_eq_false_iff, beq_eq_false_iff_ne,
      ne_eq] at this
    rcases this with hc | hc
    · exact hc (ht.trans hrem)
    · exact hc (hp.trans hcp.symm)
  | remote_wins =>
    have := (List.mem_filter.mp hmem).2
    simp only [Bool.not_eq_true', Bool.and_eq_false_iff, beq_eq_false_iff_ne,
      ne_eq] at this
    rcases this with hc | hc
    · exact hc (ht.trans hrem)
    · exact hc (hp.trans hcp.symm)
  | backup_and_merge => exact hrem

theorem handleConflicts_origin {s : Strategy} {cs : List ConflictInfo}
    {ops : List SyncOperation} {op' : SyncOperation}
    (hmem : op' ∈ handleConflicts s cs ops) :
    ∃ op ∈ ops, op.filePath = op'.filePath ∧ op.type = op'.type := by
  induction cs generalizing ops with
  | nil => exact ⟨op', hmem, rfl, rfl⟩
  | cons c cs ih =>
    have hmem2 : op' ∈ handleConflicts s cs (resolveConflict s ops c) := hmem
    obtain ⟨op1, hop1, he1, he2⟩ := ih hmem2
    obtain ⟨op0, hop0, hf1, hf2⟩ := resolveConflict_origin hop1
    exact ⟨op0, hop0, hf1.trans he1, hf2.trans he2⟩

theorem handleConflicts_survival {s : Strategy} {cs : List ConflictInfo}
    {ops : List SyncOperation} {op : SyncOperation} (hmem : op ∈ ops)
    (hkeep : ¬∃ c ∈ cs, c.filePath = op.filePath ∧ strategyRemoves s op.type) :
    ∃ op' ∈ handleConflicts s cs ops,
      op'.filePath = op.filePath ∧ op'.type = op.type := by
  induction cs generalizing ops op with
  | nil => exact ⟨op, hmem, rfl, rfl⟩
  | cons c cs ih =>
    have hc1 : ¬(c.filePath = op.filePath ∧ strategyRemoves s op.type) := by
      intro hc
      exact hkeep ⟨c, List.mem_cons_self c cs, hc⟩
    obtain ⟨op1, hop1, he1, he2⟩ := resolveConflict_survival hmem hc1
    have hkeep2 : ¬∃ c' ∈ cs, c'.filePath = op1.filePath ∧
        strategyRemoves s op1.type := by
      rintro ⟨c', hc', hcp, hcr⟩
      exact hkeep ⟨c', List.mem_cons_of_mem c hc',
        he1 ▸ hcp, he2 ▸ hcr⟩
    obtain ⟨op', hop', hf1, hf2⟩ := ih hop1 hkeep2
    exact ⟨op', hop', hf1.trans he1, hf2.trans he2⟩

theorem handleConflicts_noPT_preserve {s : Strategy} {cs : List ConflictInfo}
    {ops : List SyncOperation} {p : String} {t : OpType}
    (hno : ∀ op ∈ ops, ¬(op.filePath = p ∧ op.type = t)) :
    ∀ op' ∈ handleConflicts s cs ops, ¬(op'.filePath = p ∧ op'.type = t) := by
  induction cs generalizing ops with
  | nil => exact hno
  | cons c cs ih =>
    apply ih
    intro op1 hop1 ⟨hp, ht⟩
    obtain ⟨op0, hop0, hf1, hf2⟩ := resolveConflict_origin hop1
    exact hno op0 hop0 ⟨hf1.trans hp, hf2.trans ht⟩

/-- If some conflict names the path and the strategy removes this operation
type there, no operation of that path and type survives conflict handling. -/
theorem handleConflicts_removes {s : Strategy} {cs : List ConflictInfo}
    {ops : List SyncOperation} {c : ConflictInfo} {p : String} {t : OpType}
    (hc : c ∈ cs) (hcp : c.filePath = p) (hrem : strategyRemoves s t) :
    ∀ op' ∈ handleConflicts s cs ops, ¬(op'.filePath = p ∧ op'.type = t) := by
  obtain ⟨l1, l2, hsplit⟩ := List.append_of_mem hc
  subst hsplit
  intro op' hmem
  unfold handleConflicts at hmem
  rw [List.foldl_append, List.foldl_cons] at hmem
  exact handleConflicts_noPT_preserve
    (resolveConflict_removes hcp hrem) op' hmem

/-! ## C6: conflict detection is pointwise in the path's slots -/

theorem localConflictFor_congr {h : Nat → Nat} {sts1 sts2 : List SyncStateEntry}
    {pid : String} {f : LocalFile}
    (hs : getFileState sts1 pid f.path = getFileState sts2 pid f.path) :
    localConflictFor h sts1 pid f = localConflictFor h sts2 pid f := by
  unfold localConflictFor
  rw [hs]

theorem local_conf_at {h : Nat → Nat} {sts : List SyncStateEntry} {pid : String}
    {locals : List LocalFile} {p : String}
    (hnd : (locals.map (fun g => g.path)).Nodup) :
    ((∃ c ∈ validateLocalConflicts h sts pid locals, c.filePath = p) ↔
      (∃ f c, findLocal locals p = Option.some f ∧
        localConflictFor h sts pid f = Option.some c)) := by
  constructor
  · rintro ⟨c, hc, hcp⟩
    obtain ⟨g, hg, hgc⟩ := List.mem_filterMap.mp hc
    have hgp : g.path = p := (localConflictFor_path hgc) ▸ hcp
    exact ⟨g, c, hgp ▸ findLocal_of_mem hnd hg, hgc⟩
  · rintro ⟨f, c, hfl, hfc⟩
    obtain ⟨hfm, hfp⟩ := findLocal_some hfl
    exact ⟨c, List.mem_filterMap.mpr ⟨f, hfm, hfc⟩,
      (localConflictFor_path hfc).trans hfp⟩

theorem remoteConflictFor_path {sts : List SyncStateEntry} {pid : String}
    {locals : List LocalFile} {rf : RemoteFile} {c : ConflictInfo}
    (hs : remoteConflictFor sts pid locals rf = Option.some c) :
    c.filePath = rf.path := by
  unfold remoteConflictFor at hs
  cases hgs : getFileState sts pid rf.path with
  | none =>
    simp only [hgs] at hs
    cases hs
  | some st =>
    simp only [hgs] at hs
    by_cases hm : st.lastSyncTime < rf.updatedAt
    · simp only [if_pos hm] at hs
      cases hlf : findLocal locals rf.path with
      | none =>
        simp only [hlf] at hs
        cases hs
        rfl
      | some lf =>
        simp only [hlf] at hs
        by_cases h2 : st.lastSyncTime < lf.mtime
        · simp only [if_pos h2] at hs
          cases hs
          rfl
        · simp only [if_neg h2] at hs
          cases hs
          rfl
    · simp only [if_neg hm] at hs
      cases hs

theorem remoteConflictFor_congr {sts1 sts2 : List SyncStateEntry} {pid : String}
    {locals1 locals2 : List LocalFile} {rf : RemoteFile}
    (hs : getFileState sts1 pid rf.path = getFileState sts2 pid rf.path)
    (hl : findLocal locals1 rf.path = findLocal locals2 rf.path) :
    remoteConflictFor sts1 pid locals1 rf = remoteConflictFor sts2 pid locals2 rf := by
  unfold remoteConflictFor
  rw [hs, hl]

theorem remote_conf_at {sts : List SyncStateEntry} {pid : String}
    {locals : List LocalFile} {remotes : List RemoteFile} {p : String} :
    ((∃ c ∈ validateRemoteConflicts sts pid locals remotes, c.filePath = p) ↔
      (∃ rf c, rf ∈ remotesAt remotes p ∧
        remoteConflictFor sts pid locals rf = Option.some c)) := by
  constructor
  · rintro ⟨c, hc, hcp⟩
    obtain ⟨rf, hrf, hrc⟩ := List.mem_filterMap.mp hc
    have hrp : rf.path = p := (remoteConflictFor_path hrc) ▸ hcp
    refine ⟨rf, c, List.mem_filter.mpr ⟨hrf, by simp [hrp]⟩, hrc⟩
  · rintro ⟨rf, c, hrf, hrc⟩
    have hm := List.mem_filter.mp hrf
    have hrp : rf.path = p := by simpa using hm.2
    exact ⟨c, List.mem_filterMap.mpr ⟨rf, hm.1, hrc⟩,
      (remoteConflictFor_path hrc).trans hrp⟩

theorem deletedConflictFor_path {locals : List LocalFile} {remotes : List RemoteFile}
    {st : SyncStateEntry} {c : ConflictInfo}
    (hs : deletedConflictFor locals remotes st = Option.some c) :
    c.filePath = st.localPath := by
  unfold deletedConflictFor at hs
  cases hlf : findLocal locals st.localPath with
  | none =>
    simp only [hlf] at hs
    by_cases ha : remotes.any (fun rf => rf.path == st.localPath) = true
    · simp only [if_pos ha] at hs
      cases hs
      rfl
    · simp only [if_neg ha] at hs
      cases hs
  | some lf =>
    simp only [hlf] at hs
    cases hs

theorem deleted_conf_at {sts : List SyncStateEntry} {pid : String}
    {locals : List LocalFile} {remotes : List RemoteFile} {p : String} :
    ((∃ c ∈ detectConflicts sts pid locals remotes, c.filePath = p) ↔
      (getFileState sts pid p ≠ Option.none ∧ findLocal locals p = Option.none ∧
        remotesAt remotes p ≠ [])) := by
  constructor
  · rintro ⟨c, hc, hcp⟩
    obtain ⟨st, hst, hstc⟩ := List.mem_filterMap.mp hc
    have hsp : st.localPath = p := (deletedConflictFor_path hstc) ▸ hcp
    have hmem := List.mem_filter.mp hst
    have hproj : st.projectId = pid := by simpa using hmem.2
    unfold deletedConflictFor at hstc
    cases hlf : findLocal locals st.localPath with
    | some lf =>
      simp only [hlf] at hstc
      cases hstc
    | none =>
      simp only [hlf] at hstc
      by_cases ha : remotes.any (fun rf => rf.path == st.localPath) = true
      · refine ⟨?_, hsp ▸ hlf, ?_⟩
        · intro hnone
          have := List.find?_eq_none.mp hnone st hmem.1
          simp [hproj, hsp] at this
        · obtain ⟨rf, hrfm, hrfp⟩ := List.any_eq_true.mp ha
          intro hnil
          have : rf ∈ remotesAt remotes p := by
            apply List.mem_filter.mpr
            exact ⟨hrfm, by rw [← hsp]; exact hrfp⟩
          rw [hnil] at this
          exact List.not_mem_nil rf this
      · simp only [if_neg ha] at hstc
        cases hstc
  · rintro ⟨hst, hlf, hrne⟩
    cases hgs : getFileState sts pid p with
    | none => exact absurd hgs hst
    | some st =>
      have hmem : st ∈ sts := List.mem_of_find?_eq_some hgs
      have hkey := List.find?_some hgs
      have hkey2 : st.projectId = pid ∧ st.localPath = p := by simpa using hkey
      have hproj : st.projectId = pid := hkey2.1
      have hpath : st.localPath = p := hkey2.2
      have hstl : st ∈ listFileStates sts pid :=
        List.mem_filter.mpr ⟨hmem, by simp [hproj]⟩
      obtain ⟨rf, hrf⟩ := List.exists_mem_of_ne_nil _ hrne
      have hrfm := List.mem_filter.mp hrf
      have hrfp : rf.path = p := by simpa using hrfm.2
      have hany : remotes.any (fun x => x.path == st.localPath) = true :=
        List.any_eq_true.mpr ⟨rf, hrfm.1, by simp [hrfp, hpath]⟩
      refine ⟨{ filePath := st.localPath,
                conflictType := ConflictType.local_deleted,
                lastSyncTime := Option.some st.lastSyncTime }, ?_, hpath⟩
      apply List.mem_filterMap.mpr
      refine ⟨st, hstl, ?_⟩
      unfold deletedConflictFor
      rw [hpath, hlf]
      rw [hpath] at hany
      rw [if_pos hany]

theorem exists_mem_append {α : Type} {P : α → Prop} {l1 l2 : List α} :
    (∃ c ∈ l1 ++ l2, P c) ↔ ((∃ c ∈ l1, P c) ∨ (∃ c ∈ l2, P c)) := by
  constructor
  · rintro ⟨c, hc, hp⟩
    rcases List.mem_append.mp hc with hm | hm
    · exact Or.inl ⟨c, hm, hp⟩
    · exact Or.inr ⟨c, hm, hp⟩
  · rintro (⟨c, hm, hp⟩ | ⟨c, hm, hp⟩)
    · exact ⟨c, List.mem_append_left _ hm, hp⟩
    · exact ⟨c, List.mem_append_right _ hm, hp⟩

theorem exists_mem_ite_nil {α : Type} {P : α → Prop} {Q : Prop} [Decidable Q]
    {l : List α} :
    (∃ c ∈ (if Q then l else []), P c) ↔ (Q ∧ ∃ c ∈ l, P c) := by
  by_cases hq : Q
  · rw [if_pos hq]
    simp [hq]
  · rw [if_neg hq]
    simp [hq]

/-- A conflict for path `p` exists iff it exists after replacing the world by
one with identical slots at `p`: conflict detection is pointwise. -/
theorem conflictsFor_at_transfer (h : Nat → Nat) (pid : String)
    (dir : SyncDirection) (p : String)
    {sts1 sts2 : List SyncStateEntry} {locals1 locals2 : List LocalFile}
    {remotes1 remotes2 : List RemoteFile}
    (hnd1 : (locals1.map (fun g => g.path)).Nodup)
    (hnd2 : (locals2.map (fun g => g.path)).Nodup)
    (hl : findLocal locals1 p = findLocal locals2 p)
    (hr : remotesAt remotes1 p = remotesAt remotes2 p)
    (hs : getFileState sts1 pid p = getFileState sts2 pid p) :
    ((∃ c ∈ conflictsFor h sts1 pid locals1 remotes1 dir, c.filePath = p) ↔
      (∃ c ∈ conflictsFor h sts2 pid locals2 remotes2 dir, c.filePath = p)) := by
  have compA : (∃ c ∈ validateLocalConflicts h sts1 pid locals1, c.filePath = p) ↔
      (∃ c ∈ validateLocalConflicts h sts2 pid locals2, c.filePath = p) := by
    rw [local_conf_at hnd1, local_conf_at hnd2]
    constructor
    · rintro ⟨f, c, hfl, hfc⟩
      have hsf : getFileState sts1 pid f.path = getFileState sts2 pid f.path := by
        rw [(findLocal_some hfl).2]
        exact hs
      refine ⟨f, c, hl ▸ hfl, ?_⟩
      rw [← localConflictFor_congr hsf]
      exact hfc
    · rintro ⟨f, c, hfl, hfc⟩
      have hfl1 : findLocal locals1 p = Option.some f := by
        rw [hl]
        exact hfl
      have hsf : getFileState sts1 pid f.path = getFileState sts2 pid f.path := by
        rw [(findLocal_some hfl1).2]
        exact hs
      refine ⟨f, c, hfl1, ?_⟩
      rw [localConflictFor_congr hsf]
      exact hfc
  have compB : (∃ c ∈ validateRemoteConflicts sts1 pid locals1 remotes1,
      c.filePath = p) ↔
      (∃ c ∈ validateRemoteConflicts sts2 pid locals2 remotes2, c.filePath = p) := by
    rw [remote_conf_at, remote_conf_at]
    constructor
    · rintro ⟨rf, c, hrf, hrc⟩
      have hrp : rf.path = p := by
        simpa using (List.mem_filter.mp hrf).2
      have hsr : getFileState sts1 pid rf.path = getFileState sts2 pid rf.path := by
        rw [hrp]
        exact hs
      have hlr : findLocal locals1 rf.path = findLocal locals2 rf.path := by
        rw [hrp]
        exact hl
      refine ⟨rf, c, hr ▸ hrf, ?_⟩
      rw [← remoteConflictFor_congr hsr hlr]
      exact hrc
    · rintro ⟨rf, c, hrf, hrc⟩
      have hrp : rf.path = p := by
        simpa using (List.mem_filter.mp hrf).2
      have hsr : getFileState sts1 pid rf.path = getFileState sts2 pid rf.path := by
        rw [hrp]
        exact hs
      have hlr : findLocal locals1 rf.path = findLocal locals2 rf.path := by
        rw [hrp]
        exact hl
      refine ⟨rf, c, hr.symm ▸ hrf, ?_⟩
      rw [remoteConflictFor_congr hsr hlr]
      exact hrc
  have compC : (∃ c ∈ detectConflicts sts1 pid locals1 remotes1, c.filePath = p) ↔
      (∃ c ∈ detectConflicts sts2 pid locals2 remotes2, c.filePath = p) := by
    rw [deleted_conf_at, deleted_conf_at, hl, hr, hs]
  unfold conflictsFor
  rw [exists_mem_append, exists_mem_append, exists_mem_append, exists_mem_append,
    exists_mem_ite_nil, exists_mem_ite_nil, exists_mem_ite_nil, exists_mem_ite_nil,
    exists_mem_ite_nil, exists_mem_ite_nil, compA, compB, compC]

/-! ## C6: effects of executing one operation -/

theorem uploadOpFor_type {h : Nat → Nat} {sts : List SyncStateEntry} {pid : String}
    {g : LocalFile} {op : SyncOperation}
    (hs : uploadOpFor h sts pid g = Option.some op) : op.type = OpType.upload := by
  unfold uploadOpFor at hs
  cases hgs : getFileState sts pid g.path with
  | none =>
    simp only [hgs] at hs
    cases hs
    rfl
  | some st =>
    simp only [hgs] at hs
    by_cases hd : h g.content ≠ st.localHash
    · simp only [if_pos hd] at hs
      cases hs
      rfl
    · simp only [if_neg hd] at hs
      cases hs

theorem downloadOpFor_path {sts : List SyncStateEntry} {pid : String}
    {locals : List LocalFile} {rf : RemoteFile} {op : SyncOperation}
    (hs : downloadOpFor sts pid locals rf = Option.some op) :
    op.filePath = rf.path ∧ op.type = OpType.download := by
  unfold downloadOpFor at hs
  cases hgs : getFileState sts pid rf.path with
  | none =>
    simp only [hgs] at hs
    cases hs
    exact ⟨rfl, rfl⟩
  | some st =>
    simp only [hgs] at hs
    by_cases hm : st.lastSyncTime < rf.updatedAt
    · simp only [if_pos hm] at hs
      cases hs
      exact ⟨rfl, rfl⟩
    · simp only [if_neg hm] at hs
      cases hs

theorem uploadOpFor_congr {h : Nat → Nat} {sts1 sts2 : List SyncStateEntry}
    {pid : String} {f : LocalFile}
    (hs : getFileState sts1 pid f.path = getFileState sts2 pid f.path) :
    uploadOpFor h sts1 pid f = uploadOpFor h sts2 pid f := by
  unfold uploadOpFor
  rw [hs]

theorem downloadOpFor_congr {sts1 sts2 : List SyncStateEntry} {pid : String}
    {locals1 locals2 : List LocalFile} {rf : RemoteFile}
    (hs : getFileState sts1 pid rf.path = getFileState sts2 pid rf.path)
    (hl : findLocal locals1 rf.path = findLocal locals2 rf.path) :
    downloadOpFor sts1 pid locals1 rf = downloadOpFor sts2 pid locals2 rf := by
  unfold downloadOpFor
  rw [hs, hl]

theorem remotesAt_append_ne {rs : List RemoteFile} {x : RemoteFile} {q : String}
    (hx : x.path ≠ q) : remotesAt (rs ++ [x]) q = remotesAt rs q := by
  unfold remotesAt
  rw [List.filter_append]
  have hempty : List.filter (fun rf => rf.path == q) [x] = [] := by
    simp [hx]
  rw [hempty, List.append_nil]

theorem executeOperation_frame {h : Nat → Nat} {pid : String}
    {freshId : String → String} {now : Nat} {w w1 : World} {op : SyncOperation}
    (hty : op.type = OpType.upload ∨ op.type = OpType.download)
    (hw : executeOperation h pid freshId now w op = Option.some w1)
    (q : String) (hq : q ≠ op.filePath) :
    (findLocal w1.locals q = findLocal w.locals q ∧
      remotesAt w1.remotes q = remotesAt w.remotes q ∧
      getFileState w1.syncStates pid q = getFileState w.syncStates pid q) := by
  unfold executeOperation at hw
  rcases hty with hty | hty
  · rw [hty] at hw
    unfold executeUpload at hw
    cases hlf : findLocal w.locals op.filePath with
    | none =>
      simp only [hlf] at hw
      cases hw
    | some lf =>
      simp only [hlf] at hw
      cases hw
      refine ⟨rfl, ?_, ?_⟩
      · exact remotesAt_append_ne (fun hc => hq (hc.symm))
      · rw [getFileState_saveFileState]
        apply if_neg
        rintro ⟨_, hq2⟩
        exact hq hq2
  · rw [hty] at hw
    unfold executeDownload at hw
    cases hrf : w.remotes.find? (fun rf => rf.path == op.filePath) with
    | none =>
      simp only [hrf] at hw
      cases hw
    | some rf =>
      simp only [hrf] at hw
      cases hw
      refine ⟨?_, rfl, ?_⟩
      · rw [findLocal_upsertLocal]
        exact if_neg hq
      · rw [getFileState_saveFileState]
        apply if_neg
        rintro ⟨_, hq2⟩
        exact hq hq2

theorem executeOperation_fresh {h : Nat → Nat} {pid : String}
    {freshId : String → String} {now : Nat} {w w1 : World} {op : SyncOperation}
    (hty : op.type = OpType.upload ∨ op.type = OpType.download)
    (hw : executeOperation h pid freshId now w op = Option.some w1) :
    FreshSlot h pid now w1 op.filePath := by
  unfold executeOperation at hw
  rcases hty with hty | hty
  · rw [hty] at hw
    unfold executeUpload at hw
    cases hlf : findLocal w.locals op.filePath with
    | none =>
      simp only [hlf] at hw
      cases hw
    | some lf =>
      simp only [hlf] at hw
      cases hw
      refine ⟨_, (getFileState_saveFileState _ _ _ _).trans (if_pos ⟨rfl, rfl⟩),
        rfl, ?_⟩
      intro f hf
      have hlf2 : Option.some lf = Option.some f := hlf ▸ hf
      cases hlf2
      rfl
  · rw [hty] at hw
    unfold executeDownload at hw
    cases hrf : w.remotes.find? (fun rf => rf.path == op.filePath) with
    | none =>
      simp only [hrf] at hw
      cases hw
    | some rf =>
      simp only [hrf] at hw
      cases hw
      refine ⟨_, (getFileState_saveFileState _ _ _ _).trans (if_pos ⟨rfl, rfl⟩),
        rfl, ?_⟩
      intro f hf
      rw [findLocal_upsertLocal] at hf
      rw [if_pos rfl] at hf
      cases hf
      rfl

theorem executeOperation_invariants {h : Nat → Nat} {pid : String}
    {freshId : String → String} {now : Nat} {w w1 : World} {op : SyncOperation}
    (hty : op.type = OpType.upload ∨ op.type = OpType.download)
    (hw : executeOperation h pid freshId now w op = Option.some w1)
    (hrt : RemoteTimes w now)
    (hnd : (w.locals.map (fun g => g.path)).Nodup) :
    RemoteTimes w1 now ∧ ((w1.locals.map (fun g => g.path)).Nodup) := by
  unfold executeOperation at hw
  rcases hty with hty | hty
  · rw [hty] at hw
    unfold executeUpload at hw
    cases hlf : findLocal w.locals op.filePath with
    | none =>
      simp only [hlf] at hw
      cases hw
    | some lf =>
      simp only [hlf] at hw
      cases hw
      constructor
      · intro rf hrf
        rcases List.mem_append.mp hrf with hm | hm
        · exact hrt rf hm
        · rw [List.mem_singleton.mp hm]
      · exact hnd
  · rw [hty] at hw
    unfold executeDownload at hw
    cases hrf : w.remotes.find? (fun rf => rf.path == op.filePath) with
    | none =>
      simp only [hrf] at hw
      cases hw
    | some rf =>
      simp only [hrf] at hw
      cases hw
      exact ⟨hrt, nodup_upsertLocal hnd⟩

/-! ## C6: the execute loop -/

theorem execStep_cases (h : Nat → Nat) (pid : String) (backupOk : String → Bool)
    (execOk : SyncOperation → Bool) (freshId : String → String) (now : Nat)
    (acc : RunAcc) (op : SyncOperation) :
    ((∃ w1, executeOperation h pid freshId now acc.world op = Option.some w1 ∧
        (execStep h pid backupOk execOk freshId now acc op).world = w1 ∧
        (execStep h pid backupOk execOk freshId now acc op).errors = acc.errors) ∨
      ((execStep h pid backupOk execOk freshId now acc op).world = acc.world ∧
        (execStep h pid backupOk execOk freshId now acc op).errors =
          acc.errors ++ [execFailError op])) := by
  unfold execStep
  by_cases hreq : op.backupRequired = true
  · rw [if_pos hreq]
    by_cases hbk : backupOk op.filePath = true
    · rw [if_pos hbk]
      by_cases hex : execOk op = true
      · rw [if_pos hex]
        cases hwo : executeOperation h pid freshId now acc.world op with
        | some w1 => exact Or.inl ⟨w1, rfl, rfl, rfl⟩
        | none => exact Or.inr ⟨rfl, rfl⟩
      · rw [if_neg hex]
        exact Or.inr ⟨rfl, rfl⟩
    · rw [if_neg hbk]
      by_cases hex : execOk op = true
      · rw [if_pos hex]
        cases hwo : executeOperation h pid freshId now acc.world op with
        | some w1 => exact Or.inl ⟨w1, rfl, rfl, rfl⟩
        | none => exact Or.inr ⟨rfl, rfl⟩
      · rw [if_neg hex]
        exact Or.inr ⟨rfl, rfl⟩
  · rw [if_neg hreq]
    by_cases hex : execOk op = true
    · rw [if_pos hex]
      cases hwo : executeOperation h pid freshId now acc.world op with
      | some w1 => exact Or.inl ⟨w1, rfl, rfl, rfl⟩
      | none => exact Or.inr ⟨rfl, rfl⟩
    · rw [if_neg hex]
      exact Or.inr ⟨rfl, rfl⟩

theorem execAll_cons (h : Nat → Nat) (pid : String) (backupOk : String → Bool)
    (execOk : SyncOperation → Bool) (freshId : String → String) (now : Nat)
    (op : SyncOperation) (ops : List SyncOperation) (acc : RunAcc) :
    execAll h pid backupOk execOk freshId now (op :: ops) acc =
      execAll h pid backupOk execOk freshId now ops
        (execStep h pid backupOk execOk freshId now acc op) := rfl

theorem execAll_errors_mono (h : Nat → Nat) (pid : String) (backupOk : String → Bool)
    (execOk : SyncOperation → Bool) (freshId : String → String) (now : Nat)
    (ops : List SyncOperation) :
    ∀ acc : RunAcc, ∃ u,
      (execAll h pid backupOk execOk freshId now ops acc).errors =
        acc.errors ++ u := by
  induction ops with
  | nil =>
    intro acc
    exact ⟨[], (List.append_nil _).symm⟩
  | cons op ops ih =>
    intro acc
    obtain ⟨u2, hu2⟩ := ih (execStep h pid backupOk execOk freshId now acc op)
    rcases execStep_cases h pid backupOk execOk freshId now acc op with
      ⟨w1, _, _, herr⟩ | ⟨_, herr⟩
    · exact ⟨u2, by
        show (execAll h pid backupOk execOk freshId now ops
          (execStep h pid backupOk execOk freshId now acc op)).errors = _
        rw [hu2, herr]⟩
    · refine ⟨[execFailError op] ++ u2, ?_⟩
      show (execAll h pid backupOk execOk freshId now ops
        (execStep h pid backupOk execOk freshId now acc op)).errors = _
      rw [hu2, herr, List.append_assoc]

theorem FreshSlot_transfer {h : Nat → Nat} {pid : String} {now : Nat}
    {w1 w2 : World} {p : String} (hf : FreshSlot h pid now w1 p)
    (hl : findLocal w2.locals p = findLocal w1.locals p)
    (hs : getFileState w2.syncStates pid p = getFileState w1.syncStates pid p) :
    FreshSlot h pid now w2 p := by
  obtain ⟨st, h1, h2, h3⟩ := hf
  refine ⟨st, hs.trans h1, h2, ?_⟩
  intro f hfl
  exact h3 f (hl ▸ hfl)

/-- The core loop invariant: if every operation is an upload or download and
the loop recorded no errors, then every touched path has a fresh slot in the
final world and every untouched path's slots are unchanged; remote-time
sanity and local path uniqueness are preserved. -/
theorem execAll_characterization (h : Nat → Nat) (pid : String)
    (backupOk : String → Bool) (execOk : SyncOperation → Bool)
    (freshId : String → String) (now : Nat) (ops : List SyncOperation) :
    ∀ acc : RunAcc,
      (∀ op ∈ ops, op.type = OpType.upload ∨ op.type = OpType.download) →
      RemoteTimes acc.world now →
      ((acc.world.locals.map (fun g => g.path)).Nodup) →
      (execAll h pid backupOk execOk freshId now ops acc).errors = acc.errors →
      (RemoteTimes (execAll h pid backupOk execOk freshId now ops acc).world now ∧
        (((execAll h pid backupOk execOk freshId now ops acc).world.locals.map
          (fun g => g.path)).Nodup) ∧
        (∀ p, (∃ op ∈ ops, op.filePath = p) →
          FreshSlot h pid now
            (execAll h pid backupOk execOk freshId now ops acc).world p) ∧
        (∀ p, (¬∃ op ∈ ops, op.filePath = p) →
          (findLocal (execAll h pid backupOk execOk freshId now ops acc).world.locals
              p = findLocal acc.world.locals p ∧
            remotesAt (execAll h pid backupOk execOk freshId now ops
              acc).world.remotes p = remotesAt acc.world.remotes p ∧
            getFileState (execAll h pid backupOk execOk freshId now
              ops acc).world.syncStates pid p =
              getFileState acc.world.syncStates pid p))) := by
  induction ops with
  | nil =>
    intro acc _ hrt hnd _
    exact ⟨hrt, hnd, fun p hp => absurd hp (by simp), fun p _ => ⟨rfl, rfl, rfl⟩⟩
  | cons op ops ih =>
    intro acc hops hrt hnd hsucc
    rw [execAll_cons] at hsucc
    simp only [execAll_cons]
    have hty : op.type = OpType.upload ∨ op.type = OpType.download :=
      hops op (List.mem_cons_self op ops)
    have hsucc2 : (execAll h pid backupOk execOk freshId now ops
        (execStep h pid backupOk execOk freshId now acc op)).errors = acc.errors :=
      hsucc
    obtain ⟨t, ht⟩ := execAll_errors_mono h pid backupOk execOk freshId now ops
      (execStep h pid backupOk execOk freshId now acc op)
    rcases execStep_cases h pid backupOk execOk freshId now acc op with
      ⟨w1, hwo, hwd, herr⟩ | ⟨hwd, herr⟩
    · obtain ⟨hrt1, hnd1⟩ := executeOperation_invariants hty hwo hrt hnd
      have herr2 : (execAll h pid backupOk execOk freshId now ops
          (execStep h pid backupOk execOk freshId now acc op)).errors =
          (execStep h pid backupOk execOk freshId now acc op).errors := by
        rw [hsucc2, herr]
      have ih' := ih (execStep h pid backupOk execOk freshId now acc op)
        (fun o ho => hops o (List.mem_cons_of_mem op ho))
        (by rw [hwd]; exact hrt1) (by rw [hwd]; exact hnd1) herr2
      refine ⟨ih'.1, ih'.2.1, ?_, ?_⟩
      · intro p hp
        rcases hp with ⟨op', hop', hpp⟩
        rcases List.mem_cons.mp hop' with hx | hx
        · subst hx
          by_cases hlater : ∃ o ∈ ops, o.filePath = p
          · exact ih'.2.2.1 p hlater
          · have hfr := executeOperation_fresh hty hwo
            have hframe := ih'.2.2.2 p hlater
            refine FreshSlot_transfer (hpp ▸ hfr) ?_ ?_
            · rw [hframe.1, hwd]
            · rw [hframe.2.2, hwd]
        · exact ih'.2.2.1 p ⟨op', hx, hpp⟩
      · intro p hp
        have hp1 : p ≠ op.filePath := by
          intro hc
          exact hp ⟨op, List.mem_cons_self op ops, hc.symm⟩
        have hp2 : ¬∃ o ∈ ops, o.filePath = p := by
          rintro ⟨o, ho, hop⟩
          exact hp ⟨o, List.mem_cons_of_mem op ho, hop⟩
        have hstep := executeOperation_frame hty hwo p hp1
        have hrest := ih'.2.2.2 p hp2
        refine ⟨?_, ?_, ?_⟩
        · rw [hrest.1, hwd, hstep.1]
        · rw [hrest.2.1, hwd, hstep.2.1]
        · rw [hrest.2.2, hwd, hstep.2.2]
    · exfalso
      rw [herr] at ht
      rw [hsucc2] at ht
      have := congrArg List.length ht
      simp only [List.length_append, List.length_cons, List.length_nil] at this
      omega

/-! ## C6: the full run and idempotence -/

theorem planOperations_types (h : Nat → Nat) (dir : SyncDirection)
    (sts : List SyncStateEntry) (pid : String) (locals : List LocalFile)
    (remotes : List RemoteFile) :
    ∀ op ∈ planOperations h dir sts pid locals remotes,
      op.type = OpType.upload ∨ op.type = OpType.download := by
  intro op hop
  unfold planOperations at hop
  rcases List.mem_append.mp hop with hm | hm
  · by_cases hd : (dir = SyncDirection.upload ∨ dir = SyncDirection.both)
    · rw [if_pos hd] at hm
      obtain ⟨f, _, hf⟩ := List.mem_filterMap.mp hm
      exact Or.inl (uploadOpFor_type hf)
    · rw [if_neg hd] at hm
      cases hm
  · by_cases hd : (dir = SyncDirection.download ∨ dir = SyncDirection.both)
    · rw [if_pos hd] at hm
      obtain ⟨rf, _, hf⟩ := List.mem_filterMap.mp hm
      exact Or.inr (downloadOpFor_path hf).2
    · rw [if_neg hd] at hm
      cases hm

theorem downloadOpFor_none_of_synced {sts : List SyncStateEntry} {pid : String}
    {locals : List LocalFile} {rf : RemoteFile} {st : SyncStateEntry}
    (hst : getFileState sts pid rf.path = Option.some st)
    (hle : rf.updatedAt ≤ st.lastSyncTime) :
    downloadOpFor sts pid locals rf = Option.none := by
  unfold downloadOpFor
  simp only [hst]
  exact if_neg (Nat.not_lt.mpr hle)

theorem syncRun_exec_fields (h : Nat → Nat) (opts : SafeSyncOptions) (pid : String)
    (envIssues : List ValidationIssue) (backupOk : String → Bool)
    (execOk : SyncOperation → Bool) (freshId : String → String) (now : Nat)
    (w : World)
    (hg : (opts.validationEnabled && !(validate h envIssues
      { maxConflictCount := opts.maxConflictCount, allowForce := opts.force }
      w.syncStates pid w.locals w.remotes opts.direction).canProceed &&
      !opts.force) = false)
    (hdry : opts.dryRun = false) :
    ((syncRun h opts pid envIssues backupOk execOk freshId now w).world =
        (execAll h pid backupOk execOk freshId now (runOps h opts pid w)
          (runAcc0 h opts pid envIssues w)).world ∧
      (syncRun h opts pid envIssues backupOk execOk freshId now w).result.operations
        = runOps h opts pid w ∧
      (syncRun h opts pid envIssues backupOk execOk freshId now w).result.success =
        ((if opts.validationEnabled then issueErrors envIssues else []) ++
          (execAll h pid backupOk execOk freshId now (runOps h opts pid w)
            (runAcc0 h opts pid envIssues w)).errors).isEmpty) := by
  simp only [syncRun]
  rw [hg, hdry]
  simp only [Bool.false_eq_true, if_false]
  exact ⟨rfl, rfl, rfl⟩

/-- C6: running `sync()` twice in immediate succession — no local or remote
change in between, sane clocks (no remote timestamp from the future), unique
local paths — with the first (non-dry) run succeeding, makes the second run
plan zero operations: its post-conflict-resolution operations list is empty. -/
theorem sync_idempotent_c6 (h : Nat → Nat) (opts : SafeSyncOptions) (pid : String)
    (envIssues : List ValidationIssue) (backupOk : String → Bool)
    (execOk : SyncOperation → Bool) (freshId : String → String)
    (now1 now2 : Nat) (w : World)
    (hdry : opts.dryRun = false)
    (hnd : (w.locals.map (fun f => f.path)).Nodup)
    (hrt : ∀ rf ∈ w.remotes, rf.updatedAt ≤ now1)
    (hsucc : (syncRun h opts pid envIssues backupOk execOk freshId now1
      w).result.success = true) :
    (syncRun h opts pid envIssues backupOk execOk freshId now2
      (syncRun h opts pid envIssues backupOk execOk freshId now1 w).world
      ).result.operations = [] := by
  by_cases hg1 : (opts.validationEnabled && !(validate h envIssues
      { maxConflictCount := opts.maxConflictCount, allowForce := opts.force }
      w.syncStates pid w.locals w.remotes opts.direction).canProceed &&
      !opts.force) = true
  · exfalso
    simp only [syncRun] at hsucc
    rw [if_pos hg1] at hsucc
    simp at hsucc
  · have hg1f : (opts.validationEnabled && !(validate h envIssues
        { maxConflictCount := opts.maxConflictCount, allowForce := opts.force }
        w.syncStates pid w.locals w.remotes opts.direction).canProceed &&
        !opts.force) = false := Bool.eq_false_iff.mpr hg1
    have hse := syncRun_exec_fields h opts pid envIssues backupOk execOk freshId
      now1 w hg1f hdry
    rw [hse.2.2] at hsucc
    have hnil : (if opts.validationEnabled then issueErrors envIssues else []) ++
        (execAll h pid backupOk execOk freshId now1 (runOps h opts pid w)
          (runAcc0 h opts pid envIssues w)).errors = [] := by
      rwa [List.isEmpty_iff] at hsucc
    have herr1 : (execAll h pid backupOk execOk freshId now1
        (runOps h opts pid w) (runAcc0 h opts pid envIssues w)).errors
        = [] := (List.append_eq_nil.mp hnil).2
    have htypes : ∀ op ∈ runOps h opts pid w,
        op.type = OpType.upload ∨ op.type = OpType.download := by
      intro op hop
      unfold runOps at hop
      obtain ⟨op0, hop0, _, hty⟩ := handleConflicts_origin hop
      rcases planOperations_types h opts.direction w.syncStates pid w.locals
        w.remotes op0 hop0 with ht | ht
      · exact Or.inl (hty.symm.trans ht)
      · exact Or.inr (hty.symm.trans ht)
    have hrtacc : RemoteTimes (runAcc0 h opts pid envIssues w).world now1 := hrt
    have hndacc : (((runAcc0 h opts pid envIssues w).world.locals).map
        (fun g => g.path)).Nodup := hnd
    have herracc : (execAll h pid backupOk execOk freshId now1
        (runOps h opts pid w) (runAcc0 h opts pid envIssues w)).errors =
        (runAcc0 h opts pid envIssues w).errors := herr1.trans rfl
    have hchar := execAll_characterization h pid backupOk execOk freshId now1
      (runOps h opts pid w) (runAcc0 h opts pid envIssues w) htypes
      hrtacc hndacc herracc
    rw [hse.1]
    set W2 := (execAll h pid backupOk execOk freshId now1
      (runOps h opts pid w) (runAcc0 h opts pid envIssues w)).world
      with hW2
    obtain ⟨hrt2, hnd2, hfresh, hframe⟩ := hchar
    have hrt2a : ∀ x ∈ W2.remotes, x.updatedAt ≤ now1 := hrt2
    have hnd2a : (W2.locals.map (fun g => g.path)).Nodup := hnd2
    by_cases hg2 : (opts.validationEnabled && !(validate h envIssues
        { maxConflictCount := opts.maxConflictCount, allowForce := opts.force }
        W2.syncStates pid W2.locals W2.remotes opts.direction).canProceed &&
        !opts.force) = true
    · simp only [syncRun]
      rw [if_pos hg2]
    · have hg2f : (opts.validationEnabled && !(validate h envIssues
          { maxConflictCount := opts.maxConflictCount, allowForce := opts.force }
          W2.syncStates pid W2.locals W2.remotes opts.direction).canProceed &&
          !opts.force) = false := Bool.eq_false_iff.mpr hg2
      have hse2 := syncRun_exec_fields h opts pid envIssues backupOk execOk freshId
        now2 W2 hg2f hdry
      rw [hse2.2.1]
      apply List.eq_nil_iff_forall_not_mem.mpr
      intro op' hop'
      unfold runOps at hop'
      obtain ⟨op0, hop0, hpath0, htype0⟩ := handleConflicts_origin hop'
      unfold planOperations at hop0
      rcases List.mem_append.mp hop0 with hup | hdown
      · by_cases hd : (opts.direction = SyncDirection.upload ∨
            opts.direction = SyncDirection.both)
        · rw [if_pos hd] at hup
          obtain ⟨f, hf, hfop⟩ := List.mem_filterMap.mp hup
          have hfp : op0.filePath = f.path := uploadOpFor_path hfop
          by_cases hcase : ∃ op ∈ runOps h opts pid w,
              op.filePath = f.path
          · have hfs : ∃ st, getFileState W2.syncStates pid f.path =
                Option.some st ∧ st.lastSyncTime = now1 ∧
                (∀ g, findLocal W2.locals f.path = Option.some g →
                  st.localHash = h g.content) := hfresh f.path hcase
            obtain ⟨st, hst, hstT, hstH⟩ := hfs
            have hfl : findLocal W2.locals f.path = Option.some f :=
              findLocal_of_mem hnd2a hf
            have hnone : uploadOpFor h W2.syncStates pid f = Option.none :=
              uploadOpFor_none_of_unchanged hst (hstH f hfl).symm
            rw [hnone] at hfop
            cases hfop
          · have hfr := hframe f.path hcase
            have hfl2 : findLocal W2.locals f.path = findLocal w.locals f.path :=
              hfr.1
            have hr2 : remotesAt W2.remotes f.path = remotesAt w.remotes f.path :=
              hfr.2.1
            have hs2 : getFileState W2.syncStates pid f.path =
                getFileState w.syncStates pid f.path := hfr.2.2
            have hflW2 : findLocal W2.locals f.path = Option.some f :=
              findLocal_of_mem hnd2a hf
            have hflw : findLocal w.locals f.path = Option.some f := by
              rw [← hfl2]
              exact hflW2
            have hfw : f ∈ w.locals := (findLocal_some hflw).1
            have hop0w : uploadOpFor h w.syncStates pid f = Option.some op0 := by
              rw [← uploadOpFor_congr hs2]
              exact hfop
            have hop0plan : op0 ∈ planOperations h opts.direction w.syncStates pid
                w.locals w.remotes := by
              unfold planOperations
              apply List.mem_append_left
              rw [if_pos hd]
              exact List.mem_filterMap.mpr ⟨f, hfw, hop0w⟩
            by_cases hconf : ∃ c ∈ runConflicts h opts pid w,
                c.filePath = op0.filePath ∧ strategyRemoves opts.strategy op0.type
            · obtain ⟨c, hc, hcp, hcrem⟩ := hconf
              have hval : opts.validationEnabled = true := by
                by_contra hv
                have hrc : runConflicts h opts pid w = [] := by
                  unfold runConflicts
                  rw [if_neg hv]
                rw [hrc] at hc
                exact List.not_mem_nil c hc
              have hcw : ∃ c0 ∈ conflictsFor h w.syncStates pid w.locals w.remotes
                  opts.direction, c0.filePath = f.path := by
                refine ⟨c, ?_, hcp.trans hfp⟩
                unfold runConflicts at hc
                rw [if_pos hval] at hc
                exact hc
              have htrans := (conflictsFor_at_transfer h pid opts.direction f.path
                hnd hnd2a hfl2.symm hr2.symm hs2.symm).mp hcw
              obtain ⟨c2, hc2, hc2p⟩ := htrans
              have hc2mem : c2 ∈ runConflicts h opts pid W2 := by
                unfold runConflicts
                rw [if_pos hval]
                exact hc2
              exact handleConflicts_removes hc2mem hc2p hcrem op' hop'
                ⟨hpath0.symm.trans hfp, htype0.symm⟩
            · obtain ⟨op1, hop1, hop1p, _⟩ :=
                handleConflicts_survival hop0plan hconf
              exact hcase ⟨op1, hop1, hop1p.trans hfp⟩
        · rw [if_neg hd] at hup
          cases hup
      · by_cases hd : (opts.direction = SyncDirection.download ∨
            opts.direction = SyncDirection.both)
        · rw [if_pos hd] at hdown
          obtain ⟨rf, hrfmem, hrfop⟩ := List.mem_filterMap.mp hdown
          obtain ⟨hrp, hrty⟩ := downloadOpFor_path hrfop
          by_cases hcase : ∃ op ∈ runOps h opts pid w,
              op.filePath = rf.path
          · have hfs : ∃ st, getFileState W2.syncStates pid rf.path =
                Option.some st ∧ st.lastSyncTime = now1 ∧
                (∀ g, findLocal W2.locals rf.path = Option.some g →
                  st.localHash = h g.content) := hfresh rf.path hcase
            obtain ⟨st, hst, hstT, _⟩ := hfs
            have hle : rf.updatedAt ≤ st.lastSyncTime := by
              rw [hstT]
              exact hrt2a rf hrfmem
            have hnone : downloadOpFor W2.syncStates pid W2.locals rf =
                Option.none := downloadOpFor_none_of_synced hst hle
            rw [hnone] at hrfop
            cases hrfop
          · have hfr := hframe rf.path hcase
            have hfl2 : findLocal W2.locals rf.path = findLocal w.locals rf.path :=
              hfr.1
            have hr2 : remotesAt W2.remotes rf.path = remotesAt w.remotes rf.path :=
              hfr.2.1
            have hs2 : getFileState W2.syncStates pid rf.path =
                getFileState w.syncStates pid rf.path := hfr.2.2
            have hrfW2 : rf ∈ remotesAt W2.remotes rf.path :=
              List.mem_filter.mpr ⟨hrfmem, by simp⟩
            have hrfw1 : rf ∈ remotesAt w.remotes rf.path := by
              rw [← hr2]
              exact hrfW2
            have hrfw : rf ∈ w.remotes := (List.mem_filter.mp hrfw1).1
            have hop0w : downloadOpFor w.syncStates pid w.locals rf =
                Option.some op0 := by
              rw [← downloadOpFor_congr hs2 hfl2]
              exact hrfop
            have hop0plan : op0 ∈ planOperations h opts.direction w.syncStates pid
                w.locals w.remotes := by
              unfold planOperations
              apply List.mem_append_right
              rw [if_pos hd]
              exact List.mem_filterMap.mpr ⟨rf, hrfw, hop0w⟩
            by_cases hconf : ∃ c ∈ runConflicts h opts pid w,
                c.filePath = op0.filePath ∧ strategyRemoves opts.strategy op0.type
            · obtain ⟨c, hc, hcp, hcrem⟩ := hconf
              have hval : opts.validationEnabled = true := by
                by_contra hv
                have hrc : runConflicts h opts pid w = [] := by
                  unfold runConflicts
                  rw [if_neg hv]
                rw [hrc] at hc
                exact List.not_mem_nil c hc
              have hcw : ∃ c0 ∈ conflictsFor h w.syncStates pid w.locals w.remotes
                  opts.direction, c0.filePath = rf.path := by
                refine ⟨c, ?_, hcp.trans hrp⟩
                unfold runConflicts at hc
                rw [if_pos hval] at hc
                exact hc
              have htrans := (conflictsFor_at_transfer h pid opts.direction rf.path
                hnd hnd2a hfl2.symm hr2.symm hs2.symm).mp hcw
              obtain ⟨c2, hc2, hc2p⟩ := htrans
              have hc2mem : c2 ∈ runConflicts h opts pid W2 := by
                unfold runConflicts
                rw [if_pos hval]
                exact hc2
              exact handleConflicts_removes hc2mem hc2p hcrem op' hop'
                ⟨hpath0.symm.trans hrp, htype0.symm⟩
            · obtain ⟨op1, hop1, hop1p, _⟩ :=
                handleConflicts_survival hop0plan hconf
              exact hcase ⟨op1, hop1, hop1p.trans hrp⟩
        · rw [if_neg hd] at hdown
          cases hdown

/-- Witness for C6 at a concrete input: a fresh project with one local file is
uploaded by the first run; the second run plans nothing. -/
theorem sync_idempotent_c6_witness :
    ((c6Opts.dryRun = false ∧
      ((c6World.locals.map (fun f => f.path)).Nodup) ∧
      (∀ rf ∈ c6World.remotes, rf.updatedAt ≤ 5) ∧
      (syncRun (fun n => n) c6Opts "P" [] (fun _ => true) (fun _ => true)
        (fun p => p) 5 c6World).result.success = true) ∧
      (syncRun (fun n => n) c6Opts "P" [] (fun _ => true) (fun _ => true)
        (fun p => p) 9
        (syncRun (fun n => n) c6Opts "P" [] (fun _ => true) (fun _ => true)
          (fun p => p) 5 c6World).world).result.operations = []) :=
  ⟨⟨by decide, by decide, by decide, by decide⟩,
    sync_idempotent_c6 (fun n => n) c6Opts "P" [] (fun _ => true) (fun _ => true)
      (fun p => p) 5 9 c6World (by decide) (by decide) (by decide) (by decide)⟩

end ClaudeSync
